import Mathlib

/-!
# Thread-art generator: embedding of `threadGenerator/thread_generator.go`

The Go package `threadGenerator` is embedded as pure Lean functions.

Modelling conventions:

* Go `int` values are `Int`.  The one addition whose overflow is reachable from an
  `Args` value (`pixel + tg.brightnessFactor`) and the subtraction
  `len(nailsList) - tg.minimumDifference` are wrapped to 64 bits with `wrap64`;
  the remaining arithmetic is on list lengths, pixel sums and nail indices, which
  stay far inside the 64-bit range for every input that fits in memory.
* `uint8` pixel values are `Fin 256`; the conversion `uint8(v)` keeps the low 8 bits.
* `math.Abs(float64(x))` is exact for `|x| < 2^53`; it is modelled by the exact absolute
  value.
* `image.Gray` is a bounds rectangle with a pixel function; `GrayAt` outside the
  rectangle is `0` and `SetGray` outside the rectangle does nothing, as in Go.
* `map[string]T` is an association list with distinct keys.
* A Go run-time panic (integer division by zero) is the result `none`.
* The unbounded `for` loop of `bresenham` is run with explicit fuel; running out of
  fuel is `none`.
* Memory is not bounded: an image or a list that does not fit in memory is outside the
  model.
-/

namespace threadGenerator

/-! ## Data model -/

/-- An `image.Point`. -/
structure Point where
  X : Int
  Y : Int
  deriving DecidableEq, Repr

/-- The type alias `Nail = image.Point`. -/
abbrev Nail := Point

/-- The struct `Path`. -/
structure Path where
  StartingNail : Int
  EndingNail : Int
  deriving DecidableEq, Repr

/-- The struct `Args`. -/
structure Args where
  NailsQuantity : Int
  ImgSize : Int
  MaxPaths : Int
  StartingNail : Int
  MinimumDifference : Int
  BrightnessFactor : Int
  ImageName : String
  deriving DecidableEq, Repr

/-- The struct `OutputStats`; `TotalTime` is wall-clock time and is left out. -/
structure OutputStats where
  TotalLines : Int
  ThreadLength : Int
  deriving DecidableEq, Repr

/-- A Go `map[string][]Nail`: association list with distinct keys. -/
abbrev Dict := List (String × List Nail)

/-- The struct `ThreadGenerator`.  The `float64` field `imageContrast` only ever holds
the integer constant written by `getDefaults`. -/
structure ThreadGenerator where
  nailsQuantity : Int
  imgSize : Int
  maxPaths : Int
  startingNail : Int
  minimumDifference : Int
  brightnessFactor : Int
  imageName : String
  imageContrast : Int
  pathsDictionary : Dict
  pathsList : List Path
  nailsList : List Nail
  deriving DecidableEq, Repr

/-- An `image.Rectangle`. -/
structure Rectangle where
  MinX : Int
  MinY : Int
  MaxX : Int
  MaxY : Int
  deriving DecidableEq, Repr

/-- An `image.Gray`: bounds and one byte per pixel. -/
structure Gray where
  Rect : Rectangle
  Pix : Int → Int → Fin 256

/-- The test `Point.In(Rect)` for the point `(x, y)`. -/
def Rectangle.contains (r : Rectangle) (x y : Int) : Bool :=
  decide (r.MinX ≤ x) && decide (x < r.MaxX) && decide (r.MinY ≤ y) && decide (y < r.MaxY)

/-- The method `GrayAt`: the stored byte inside the bounds, `0` outside. -/
def Gray.GrayAt (g : Gray) (x y : Int) : Fin 256 :=
  if g.Rect.contains x y then g.Pix x y else 0

/-- The method `SetGray`: writes inside the bounds, does nothing outside. -/
def Gray.SetGray (g : Gray) (x y : Int) (v : Fin 256) : Gray :=
  if g.Rect.contains x y then
    { g with Pix := fun x' y' => if x' = x ∧ y' = y then v else g.Pix x' y' }
  else g

/-- Two's-complement wrap of a 64-bit signed result. -/
def wrap64 (n : Int) : Int := (n + 2 ^ 63) % 2 ^ 64 - 2 ^ 63

/-- The conversion `uint8(n)`: low 8 bits. -/
def uint8 (n : Int) : Fin 256 := ⟨(n % 256).toNat, by omega⟩

/-! ## Configuration -/

/-- The method `getDefaults`. -/
def getDefaults (tg : ThreadGenerator) : ThreadGenerator :=
  { tg with
    nailsQuantity := 300
    imgSize := 800
    maxPaths := 10000
    startingNail := 0
    minimumDifference := 10
    brightnessFactor := 50
    imageContrast := 40 }

/-- The method `mergeArgs`: the generator after the call, and the returned error
(`none` is Go's `nil`). -/
def mergeArgs (tg : ThreadGenerator) (args : Args) : ThreadGenerator × Option String :=
  let tg := getDefaults tg
  let tg := if args.NailsQuantity > 0 then { tg with nailsQuantity := args.NailsQuantity } else tg
  let tg := if args.ImgSize > 0 then { tg with imgSize := args.ImgSize } else tg
  let tg := if args.MaxPaths > 0 then { tg with maxPaths := args.MaxPaths } else tg
  let tg := if args.StartingNail > 0 then { tg with startingNail := args.StartingNail } else tg
  let tg := if args.MinimumDifference > 0 then
    { tg with minimumDifference := args.MinimumDifference } else tg
  let tg := if args.BrightnessFactor > 0 then
    { tg with brightnessFactor := args.BrightnessFactor } else tg
  if args.ImageName ≠ "" then
    ({ tg with imageName := args.ImageName }, none)
  else
    (tg, some "Image name is required")

/-! ## Pair keys and the line dictionary -/

/-- The verb `%d` of `fmt.Sprintf`: decimal digits, with a leading minus sign for a
negative number. -/
def formatInt : Int → String
  | Int.ofNat m => Nat.repr m
  | Int.negSucc m => "-" ++ Nat.repr (m + 1)

/-- The method `getPairKey`. -/
def getPairKey (a b : Int) : String :=
  if a < b then formatInt a ++ ":" ++ formatInt b
  else if a > b then formatInt b ++ ":" ++ formatInt a
  else formatInt b ++ ":" ++ formatInt a

/-- The method `abs`. -/
def abs (x : Int) : Int := (Int.natAbs x : Int)

/-- The loop of `bresenham` from the state `(startPoint, error)`; each unit of fuel
pays for one pass through the loop body. -/
def bresenhamLoop (xDifference yDifference signX signY : Int) (endPoint : Point) :
    Nat → Point → Int → Option (List Point)
  | 0, _, _ => none
  | fuel + 1, startPoint, error =>
    if startPoint = endPoint then some [startPoint]
    else
      let errorDouble := 2 * error
      let error1 := if errorDouble ≥ yDifference then error + yDifference else error
      let x1 := if errorDouble ≥ yDifference then startPoint.X + signX else startPoint.X
      let error2 := if errorDouble ≤ xDifference then error1 + xDifference else error1
      let y1 := if errorDouble ≤ xDifference then startPoint.Y + signY else startPoint.Y
      (bresenhamLoop xDifference yDifference signX signY endPoint fuel ⟨x1, y1⟩ error2).map
        (fun rest => startPoint :: rest)

/-- The method `bresenham` with a bound on the number of passes through its loop. -/
def bresenhamFuel (fuel : Nat) (startPoint endPoint : Point) : Option (List Point) :=
  let xDifference := abs (endPoint.X - startPoint.X)
  let yDifference := -abs (endPoint.Y - startPoint.Y)
  let signX : Int := if startPoint.X < endPoint.X then 1 else -1
  let signY : Int := if startPoint.Y < endPoint.Y then 1 else -1
  let error := xDifference + yDifference
  bresenhamLoop xDifference yDifference signX signY endPoint fuel startPoint error

/-- Fuel that lets the loop of `bresenham` run to its `break`
(see `bresenhamFuel_enough`). -/
def bresenhamBound (startPoint endPoint : Point) : Nat :=
  Int.natAbs (endPoint.X - startPoint.X) + Int.natAbs (endPoint.Y - startPoint.Y) + 1

/-- The method `bresenham`. -/
def bresenham (startPoint endPoint : Point) : List Point :=
  (bresenhamFuel (bresenhamBound startPoint endPoint) startPoint endPoint).getD []

/-- Map assignment `m[k] = v`. -/
def mapSet : Dict → String → List Nail → Dict
  | [], k, v => [(k, v)]
  | (k', v') :: rest, k, v =>
    if k' = k then (k, v) :: rest else (k', v') :: mapSet rest k v

/-- Map read `m[k]`: the zero value (a nil slice) for a missing key. -/
def mapGet : Dict → String → List Nail
  | [], _ => []
  | (k', v') :: rest, k => if k' = k then v' else mapGet rest k

/-- The inner loop of `generateDictionary` for a fixed `i`; `js` lists the values of `j`. -/
def generateDictionaryRow (nailsList : List Nail) (i : Nat) (js : List Nat) (d : Dict) : Dict :=
  js.foldl (fun (d : Dict) (j : Nat) =>
    mapSet d (getPairKey i j)
      (bresenham (nailsList.getD i ⟨0, 0⟩) (nailsList.getD j ⟨0, 0⟩))) d

/-- The two nested loops of `generateDictionary`, from an empty map. -/
def buildDictionary (nailsList : List Nail) : Dict :=
  let nailsQuantity := nailsList.length
  (List.range nailsQuantity).foldl (fun (d : Dict) (i : Nat) =>
    generateDictionaryRow nailsList i (List.range' (i + 1) (nailsQuantity - (i + 1))) d) []

/-- The method `generateDictionary`. -/
def generateDictionary (tg : ThreadGenerator) (nailsList : List Nail) : ThreadGenerator :=
  { tg with pathsDictionary := buildDictionary nailsList }

/-! ## The greedy planner -/

/-- The locals `maxWeight`, `maxLine`, `maxnailIndex` of one planner iteration. -/
structure Best where
  maxWeight : Int
  maxLine : List Point
  maxnailIndex : Int

/-- The state carried from one planner iteration to the next. -/
structure PlannerState where
  nailIndex : Int
  pathsList : List Path
  usedPaths : List String
  canvas : Gray

/-- The scoring loop `for _, pixelPosition := range line { weight -= int(pixelColor) }`. -/
def subtractPixels (canvas : Gray) (line : List Point) (weight : Int) : Int :=
  line.foldl (fun (w : Int) (p : Point) => w - ((canvas.GrayAt p.X p.Y).val : Int)) weight

/-- The distance and used-pair tests of the candidate loop: `true` when the candidate
is skipped by one of the three `continue` statements. -/
def skipCandidate (tg : ThreadGenerator) (nailsLen : Nat) (usedPaths : List String)
    (nailIndex : Int) (nextnailIndex : Nat) : Bool :=
  if nailIndex = (nextnailIndex : Int) then true
  else
    let difference : Int := abs ((nextnailIndex : Int) - nailIndex)
    if difference < tg.minimumDifference ∨
        difference > wrap64 ((nailsLen : Int) - tg.minimumDifference) then true
    else decide (getPairKey nextnailIndex nailIndex ∈ usedPaths)

/-- The body of the candidate loop for one `nextnailIndex`; `none` is the panic of the
division by `len(line)` when the line is empty. -/
def candidateStep (tg : ThreadGenerator) (canvas : Gray) (nailsLen : Nat)
    (usedPaths : List String) (nailIndex : Int) (best : Best) (nextnailIndex : Nat) :
    Option Best :=
  if skipCandidate tg nailsLen usedPaths nailIndex nextnailIndex then some best
  else
    let line := mapGet tg.pathsDictionary (getPairKey nailIndex nextnailIndex)
    let weight := subtractPixels canvas line ((line.length : Int) * 255)
    if line.length = 0 then none
    else
      let weight := Int.tdiv weight (line.length : Int)
      if weight > best.maxWeight then
        some { maxWeight := weight, maxLine := line, maxnailIndex := nextnailIndex }
      else some best

/-- The candidate loop over the listed values of `nextnailIndex`. -/
def scanCandidates (tg : ThreadGenerator) (canvas : Gray) (nailsLen : Nat)
    (usedPaths : List String) (nailIndex : Int) : List Nat → Best → Option Best
  | [], best => some best
  | nextnailIndex :: rest, best =>
    match candidateStep tg canvas nailsLen usedPaths nailIndex best nextnailIndex with
    | none => none
    | some best' => scanCandidates tg canvas nailsLen usedPaths nailIndex rest best'

/-- The brightening loop over the chosen line. -/
def brighten (tg : ThreadGenerator) (canvas : Gray) (maxLine : List Point) : Gray :=
  maxLine.foldl (fun (c : Gray) (p : Point) =>
    let pixel : Int := ((c.GrayAt p.X p.Y).val : Int)
    let value := uint8 (min 255 (wrap64 (pixel + tg.brightnessFactor)))
    c.SetGray p.X p.Y value) canvas

/-- What one pass through the body of the planner loop does. -/
inductive Outcome where
  | panicked : Outcome
  | halted : Outcome
  | advanced : PlannerState → Outcome

/-- One pass through the body of the planner loop. -/
def plannerIteration (tg : ThreadGenerator) (nailsLen : Nat) (s : PlannerState) : Outcome :=
  match scanCandidates tg s.canvas nailsLen s.usedPaths s.nailIndex (List.range nailsLen)
      { maxWeight := 0, maxLine := [], maxnailIndex := 0 } with
  | none => Outcome.panicked
  | some best =>
    if s.nailIndex = best.maxnailIndex then Outcome.halted
    else
      Outcome.advanced
        { nailIndex := best.maxnailIndex
          pathsList := s.pathsList ++ [⟨s.nailIndex, best.maxnailIndex⟩]
          usedPaths := getPairKey s.nailIndex best.maxnailIndex :: s.usedPaths
          canvas := brighten tg s.canvas best.maxLine }

/-- The planner loop `for i := 0; i < tg.maxPaths; i++`, with the number of passes
still allowed; `none` is a panic. -/
def plannerLoop (tg : ThreadGenerator) (nailsLen : Nat) : Nat → PlannerState → Option PlannerState
  | 0, s => some s
  | n + 1, s =>
    match plannerIteration tg nailsLen s with
    | Outcome.panicked => none
    | Outcome.halted => some s
    | Outcome.advanced s' => plannerLoop tg nailsLen n s'

/-- The method `computePathsListFromImage`: the generator after the call and the
returned path list, or `none` when the call panics.  The argument `sourceImage` is the
source image seen through the gray colour model, which is what the copy loop stores in
`canvas`. -/
def computePathsListFromImage (tg : ThreadGenerator) (sourceImage : Gray)
    (nailsList : List Nail) : Option (ThreadGenerator × List Path) :=
  let canvas : Gray := { Rect := sourceImage.Rect, Pix := fun x y => sourceImage.GrayAt x y }
  let tg := generateDictionary tg nailsList
  match plannerLoop tg nailsList.length tg.maxPaths.toNat
      { nailIndex := tg.startingNail, pathsList := [], usedPaths := [], canvas := canvas } with
  | none => none
  | some s => some ({ tg with pathsList := s.pathsList }, s.pathsList)

/-! ## The pipeline -/

/-- What the package takes from outside: the file system, the image decoder and the
`imaging` library behind `getSourceImage`, and the floating-point unit behind the two
expressions `int(radius*math.Cos(alpha))` and `int(radius*math.Sin(alpha))` with
`alpha = float64(i) * 2 * math.Pi / float64(tg.nailsQuantity)`, given as functions of
`radius`, `i` and `tg.nailsQuantity`. -/
structure Env where
  getSourceImage : ThreadGenerator → Except String Gray
  truncCos : Int → Int → Int → Int
  truncSin : Int → Int → Int → Int

/-- The method `getNailsListFromImage`; `none` is the panic of `make` with a negative
length. -/
def getNailsListFromImage (env : Env) (tg : ThreadGenerator) (sourceImage : Gray) :
    Option (ThreadGenerator × List Nail) :=
  let centerX := Int.tdiv (sourceImage.Rect.MaxX - sourceImage.Rect.MinX) 2
  let centerY := Int.tdiv (sourceImage.Rect.MaxY - sourceImage.Rect.MinY) 2
  let radius := min centerX centerY
  if tg.nailsQuantity < 0 then none
  else
    let nailsList : List Nail := (List.range tg.nailsQuantity.toNat).map (fun (i : Nat) =>
      ({ X := centerX + env.truncCos radius i tg.nailsQuantity
         Y := centerY + env.truncSin radius i tg.nailsQuantity } : Nail))
    some ({ tg with nailsList := nailsList }, nailsList)

/-- The method `Generate`: the generator after the call with the returned stats or
error, or `none` when the call panics. -/
def Generate (env : Env) (tg : ThreadGenerator) (args : Args) :
    Option (ThreadGenerator × Except String OutputStats) :=
  match mergeArgs tg args with
  | (tg, some err) => some (tg, Except.error err)
  | (tg, none) =>
    match env.getSourceImage tg with
    | Except.error err => some (tg, Except.error err)
    | Except.ok sourceImage =>
      match getNailsListFromImage env tg sourceImage with
      | none => none
      | some (tg, nailsList) =>
        match computePathsListFromImage tg sourceImage nailsList with
        | none => none
        | some (tg, _) =>
          some (tg, Except.ok { TotalLines := (tg.pathsList.length : Int), ThreadLength := 0 })

/-- The method `GetPathsList`. -/
def GetPathsList (tg : ThreadGenerator) : List Path := tg.pathsList

/-! ## Concrete inputs used in the evaluations below -/

/-- The zero value `ThreadGenerator{}`. -/
def zeroGenerator : ThreadGenerator :=
  { nailsQuantity := 0, imgSize := 0, maxPaths := 0, startingNail := 0, minimumDifference := 0
    brightnessFactor := 0, imageName := "", imageContrast := 0, pathsDictionary := []
    pathsList := [], nailsList := [] }

/-- Four nails on the circle of radius 2 around `(2, 2)`: what `getNailsListFromImage`
computes for a 4×4 image and `nailsQuantity = 4`. -/
def fourNails : List Nail := [⟨4, 2⟩, ⟨2, 4⟩, ⟨0, 2⟩, ⟨2, 0⟩]

/-- The 4×4 image with every pixel equal to `v`. -/
def uniformImage (v : Fin 256) : Gray :=
  { Rect := { MinX := 0, MinY := 0, MaxX := 4, MaxY := 4 }, Pix := fun _ _ => v }

/-- Arguments for four nails on a 4×4 canvas with `MinimumDifference = 2`; the other
counts are left unset. -/
def fourNailArgs : Args :=
  { NailsQuantity := 4, ImgSize := 4, MaxPaths := 0, StartingNail := 0, MinimumDifference := 2
    BrightnessFactor := 0, ImageName := "source.png" }

/-- The configuration `mergeArgs` builds from `fourNailArgs`. -/
def fourNailConfig : ThreadGenerator := (mergeArgs zeroGenerator fourNailArgs).1

/-- The configuration `mergeArgs` builds for four nails on a 4×4 canvas from the given
`StartingNail`, every other count left unset (so `minimumDifference` is the default 10). -/
def startAt (startingNail : Int) : ThreadGenerator :=
  (mergeArgs zeroGenerator
    { NailsQuantity := 4, ImgSize := 4, MaxPaths := 0, StartingNail := startingNail
      MinimumDifference := 0, BrightnessFactor := 0, ImageName := "source.png" }).1

/-- The truncated products `int(radius*cos)` and `int(radius*sin)` at the quarter turns
`alpha = i * pi / 2`, where the floating-point cosine and sine are `1`, `-1` or below
`1e-15` in magnitude. -/
def quarterTurn (radius : Int) (i : Int) : Int :=
  if i % 4 = 0 then radius else if i % 4 = 2 then -radius else 0

/-- An environment whose source image is the white 4×4 image and whose nails sit at
quarter turns. -/
def whiteEnv : Env :=
  { getSourceImage := fun _ => Except.ok (uniformImage 255)
    truncCos := fun radius i _ => quarterTurn radius i
    truncSin := fun radius i _ => quarterTurn radius (i + 3) }

/-! ## Notions used in the proofs about `bresenham` -/

/-- The point after one pass through the loop body of `bresenham`. -/
def nextPoint (xDifference yDifference signX signY : Int) (p : Point) (error : Int) : Point :=
  { X := if 2 * error ≥ yDifference then p.X + signX else p.X
    Y := if 2 * error ≤ xDifference then p.Y + signY else p.Y }

/-- The error term after one pass through the loop body of `bresenham`. -/
def nextError (xDifference yDifference : Int) (error : Int) : Int :=
  if 2 * error ≤ xDifference then
    (if 2 * error ≥ yDifference then error + yDifference else error) + xDifference
  else (if 2 * error ≥ yDifference then error + yDifference else error)

/-- Steps still to take along x from `p` to `endPoint`. -/
def remX (signX : Int) (endPoint p : Point) : Int := signX * (endPoint.X - p.X)

/-- Steps still to take along y from `p` to `endPoint`. -/
def remY (signY : Int) (endPoint p : Point) : Int := signY * (endPoint.Y - p.Y)

/-- The loop invariant of `bresenham`: on both axes the current point lies between the
start and the end, and the error term is determined by the steps still to take. -/
def LineInv (xDifference yDifference signX signY : Int) (endPoint p : Point) (error : Int) :
    Prop :=
  0 ≤ remX signX endPoint p ∧ remX signX endPoint p ≤ xDifference ∧
  0 ≤ remY signY endPoint p ∧ remY signY endPoint p ≤ -yDifference ∧
  error = xDifference + yDifference - xDifference * remY signY endPoint p
    - yDifference * remX signX endPoint p

/-- The reflection of `p` through the midpoint of `A` and `B`. -/
def mirror (A B p : Point) : Point := { X := A.X + B.X - p.X, Y := A.Y + B.Y - p.Y }

/-! ## Notions used in the proofs about the dictionary -/

/-- The number written by a list of decimal digit characters. -/
def decodeDigits (cs : List Char) : Nat :=
  cs.foldl (fun (acc : Nat) (c : Char) => 10 * acc + (c.toNat - 48)) 0

/-- Successive map assignments `m[k] = v` for the listed keys and values. -/
def setAll (d : Dict) (kvs : List (String × List Nail)) : Dict :=
  kvs.foldl (fun (d : Dict) (kv : String × List Nail) => mapSet d kv.1 kv.2) d

/-- The index pairs `(i, j)` visited by the nested loops of `generateDictionary`, in the
order of the visit. -/
def nailPairs (nailsQuantity : Nat) : List (Nat × Nat) :=
  (List.range nailsQuantity).flatMap (fun (i : Nat) =>
    (List.range' (i + 1) (nailsQuantity - (i + 1))).map (fun (j : Nat) => (i, j)))

/-- The key and the line stored by `generateDictionary` for the index pair `(i, j)`. -/
def dictionaryEntry (nailsList : List Nail) (ij : Nat × Nat) : String × List Nail :=
  (getPairKey ij.1 ij.2, bresenham (nailsList.getD ij.1 ⟨0, 0⟩) (nailsList.getD ij.2 ⟨0, 0⟩))

/-! ## The renderer -/

/-- The function `image.Rect`: the corners are swapped where needed so that the
rectangle is well formed. -/
def imageRect (x0 y0 x1 y1 : Int) : Rectangle :=
  { MinX := min x0 x1, MinY := min y0 y1, MaxX := max x0 x1, MaxY := max y0 y1 }

/-- The image `pathsImage` of `GeneratePathsImage` before any path is drawn:
`image.NewGray` (every byte zero) followed by the two loops that store 255 at every
`(x, y)` with `0 ≤ x, y < imgSize`. -/
def whiteCanvas (imgSize : Int) : Gray :=
  { Rect := imageRect 0 0 imgSize imgSize
    Pix := fun x y => if 0 ≤ x ∧ x < imgSize ∧ 0 ≤ y ∧ y < imgSize then 255 else 0 }

/-- The inner loop of `GeneratePathsImage` over the points of one line. -/
def darkenLine (pathsImage : Gray) (line : List Point) : Gray :=
  line.foldl (fun (g : Gray) (point : Point) =>
    let currentValue := g.GrayAt point.X point.Y
    let newValue : Int := max ((currentValue.val : Int) - 20) 0
    g.SetGray point.X point.Y (uint8 newValue)) pathsImage

/-- The method `GeneratePathsImage`: the image, or the returned error. -/
def GeneratePathsImage (tg : ThreadGenerator) : Except String Gray :=
  if tg.pathsDictionary.length = 0 then Except.error "Dictionary is empty"
  else
    Except.ok (tg.pathsList.foldl (fun (g : Gray) (path : Path) =>
      darkenLine g
        (mapGet tg.pathsDictionary (getPairKey path.StartingNail path.EndingNail)))
      (whiteCanvas tg.imgSize))

/-! ## Notions written from the specification, compared with the code below -/

/-- Written from the specification: the circular index distance
`min(|j - current|, N - |j - current|)`. -/
def circularDistance (n current j : Int) : Int :=
  min (max (j - current) (current - j)) (n - max (j - current) (current - j))

/-- Written from the specification: the weight of a line, the sum over its pixels of
`255 - canvas[pixel]` divided by the line length with truncating integer division, a
pixel outside the canvas read as 0. -/
def lineWeight (canvas : Gray) (line : List Point) : Int :=
  Int.tdiv ((line.map (fun (p : Point) => 255 - ((canvas.GrayAt p.X p.Y).val : Int))).sum)
    (line.length : Int)

/-- Written from the specification: the number of entries of the path list whose
dictionary line contains the pixel `(x, y)`. -/
def coverCount (tg : ThreadGenerator) (x y : Int) : Nat :=
  (tg.pathsList.filter (fun (path : Path) =>
    decide ((⟨x, y⟩ : Point) ∈
      mapGet tg.pathsDictionary (getPairKey path.StartingNail path.EndingNail)))).length

/-- Written from the specification: the Chebyshev distance between two pixels, which is
1 exactly for the eight neighbours of a pixel. -/
def chebyshev (p q : Point) : Nat := max (Int.natAbs (q.X - p.X)) (Int.natAbs (q.Y - p.Y))

/-! ## Notions used in the proofs about the pipeline -/

/-- The part of `Generate` that follows a successful `getSourceImage`. -/
def generateFromImage (env : Env) (tg : ThreadGenerator) (sourceImage : Gray) :
    Option (ThreadGenerator × Except String OutputStats) :=
  match getNailsListFromImage env tg sourceImage with
  | none => none
  | some (tg, nailsList) =>
    match computePathsListFromImage tg sourceImage nailsList with
    | none => none
    | some (tg, _) =>
      some (tg, Except.ok { TotalLines := (tg.pathsList.length : Int), ThreadLength := 0 })

/-! ## More concrete inputs -/

/-- Arguments for four nails on a 4×4 canvas from the given `StartingNail`, every other
count left unset; `startAt n` is the configuration `mergeArgs` builds from them. -/
def startArgs (startingNail : Int) : Args :=
  { NailsQuantity := 4, ImgSize := 4, MaxPaths := 0, StartingNail := startingNail
    MinimumDifference := 0, BrightnessFactor := 0, ImageName := "source.png" }

/-- The configuration `mergeArgs` builds for four nails on a 4×4 canvas with
`MinimumDifference = 1`, after `generateDictionary` on the four nails. -/
def adjacentConfig : ThreadGenerator :=
  generateDictionary
    (mergeArgs zeroGenerator
      { NailsQuantity := 4, ImgSize := 4, MaxPaths := 0, StartingNail := 0
        MinimumDifference := 1, BrightnessFactor := 0, ImageName := "source.png" }).1
    fourNails

/-- A generator left behind by an earlier run with other settings. -/
def usedGenerator : ThreadGenerator :=
  { nailsQuantity := 2, imgSize := 7, maxPaths := 3, startingNail := 1, minimumDifference := 1
    brightnessFactor := 9, imageName := "earlier.png", imageContrast := 40
    pathsDictionary := [("0:1", [⟨7, 3⟩, ⟨6, 3⟩])], pathsList := [⟨1, 0⟩]
    nailsList := [⟨7, 3⟩, ⟨6, 3⟩] }

/-! # Theorems -/

/-! ## Configuration merging -/

theorem mergeArgs_nailsQuantity (tg : ThreadGenerator) (args : Args) :
    (mergeArgs tg args).1.nailsQuantity
      = (if args.NailsQuantity > 0 then args.NailsQuantity else 300) := by
  simp only [mergeArgs, getDefaults, apply_ite Prod.fst, apply_ite ThreadGenerator.nailsQuantity]
  simp

theorem mergeArgs_imgSize (tg : ThreadGenerator) (args : Args) :
    (mergeArgs tg args).1.imgSize = (if args.ImgSize > 0 then args.ImgSize else 800) := by
  simp only [mergeArgs, getDefaults, apply_ite Prod.fst, apply_ite ThreadGenerator.imgSize]
  simp

theorem mergeArgs_maxPaths (tg : ThreadGenerator) (args : Args) :
    (mergeArgs tg args).1.maxPaths = (if args.MaxPaths > 0 then args.MaxPaths else 10000) := by
  simp only [mergeArgs, getDefaults, apply_ite Prod.fst, apply_ite ThreadGenerator.maxPaths]
  simp

theorem mergeArgs_startingNail (tg : ThreadGenerator) (args : Args) :
    (mergeArgs tg args).1.startingNail
      = (if args.StartingNail > 0 then args.StartingNail else 0) := by
  simp only [mergeArgs, getDefaults, apply_ite Prod.fst, apply_ite ThreadGenerator.startingNail]
  simp

theorem mergeArgs_minimumDifference (tg : ThreadGenerator) (args : Args) :
    (mergeArgs tg args).1.minimumDifference
      = (if args.MinimumDifference > 0 then args.MinimumDifference else 10) := by
  simp only [mergeArgs, getDefaults, apply_ite Prod.fst,
    apply_ite ThreadGenerator.minimumDifference]
  simp

theorem mergeArgs_brightnessFactor (tg : ThreadGenerator) (args : Args) :
    (mergeArgs tg args).1.brightnessFactor
      = (if args.BrightnessFactor > 0 then args.BrightnessFactor else 50) := by
  simp only [mergeArgs, getDefaults, apply_ite Prod.fst,
    apply_ite ThreadGenerator.brightnessFactor]
  simp

theorem mergeArgs_imageContrast (tg : ThreadGenerator) (args : Args) :
    (mergeArgs tg args).1.imageContrast = 40 := by
  simp only [mergeArgs, getDefaults, apply_ite Prod.fst, apply_ite ThreadGenerator.imageContrast]
  simp

theorem mergeArgs_error (tg : ThreadGenerator) (args : Args) :
    (mergeArgs tg args).2 = (if args.ImageName ≠ "" then none else some "Image name is required") := by
  simp only [mergeArgs, apply_ite Prod.snd]

theorem mergeArgs_imageName (tg : ThreadGenerator) (args : Args) (h : args.ImageName ≠ "") :
    (mergeArgs tg args).1.imageName = args.ImageName := by
  simp only [mergeArgs, h, ne_eq, not_false_eq_true, if_true]

/-- C10. For every `Args` with a non-empty `ImageName`, `mergeArgs` returns no error and
leaves each of `nailsQuantity`, `imgSize`, `maxPaths`, `startingNail`,
`minimumDifference`, `brightnessFactor` equal to the supplied value when that value is
positive and to its default (300, 800, 10000, 0, 10, 50) otherwise; `imageContrast`
is 40 and `imageName` is the supplied name. -/
theorem mergeArgs_defaults (tg : ThreadGenerator) (args : Args) (h : args.ImageName ≠ "") :
    (mergeArgs tg args).2 = none ∧
    (mergeArgs tg args).1.nailsQuantity
      = (if args.NailsQuantity > 0 then args.NailsQuantity else 300) ∧
    (mergeArgs tg args).1.imgSize = (if args.ImgSize > 0 then args.ImgSize else 800) ∧
    (mergeArgs tg args).1.maxPaths = (if args.MaxPaths > 0 then args.MaxPaths else 10000) ∧
    (mergeArgs tg args).1.startingNail
      = (if args.StartingNail > 0 then args.StartingNail else 0) ∧
    (mergeArgs tg args).1.minimumDifference
      = (if args.MinimumDifference > 0 then args.MinimumDifference else 10) ∧
    (mergeArgs tg args).1.brightnessFactor
      = (if args.BrightnessFactor > 0 then args.BrightnessFactor else 50) ∧
    (mergeArgs tg args).1.imageContrast = 40 ∧
    (mergeArgs tg args).1.imageName = args.ImageName :=
  ⟨by rw [mergeArgs_error, if_pos h], mergeArgs_nailsQuantity tg args, mergeArgs_imgSize tg args,
   mergeArgs_maxPaths tg args, mergeArgs_startingNail tg args,
   mergeArgs_minimumDifference tg args, mergeArgs_brightnessFactor tg args,
   mergeArgs_imageContrast tg args, mergeArgs_imageName tg args h⟩

/-- Witness for `mergeArgs_defaults` at `fourNailArgs`. -/
theorem mergeArgs_defaults_witness :
    fourNailArgs.ImageName ≠ "" ∧
    (mergeArgs zeroGenerator fourNailArgs).1.nailsQuantity = 4 ∧
    (mergeArgs zeroGenerator fourNailArgs).1.maxPaths = 10000 :=
  ⟨by decide,
   (mergeArgs_defaults zeroGenerator fourNailArgs (by decide)).2.1,
   (mergeArgs_defaults zeroGenerator fourNailArgs (by decide)).2.2.2.1⟩

/-! ## The planner loop -/

theorem plannerIteration_advanced {tg : ThreadGenerator} {nailsLen : Nat} {s s' : PlannerState}
    (h : plannerIteration tg nailsLen s = Outcome.advanced s') :
    ∃ best, scanCandidates tg s.canvas nailsLen s.usedPaths s.nailIndex (List.range nailsLen)
        { maxWeight := 0, maxLine := [], maxnailIndex := 0 } = some best ∧
      s.nailIndex ≠ best.maxnailIndex ∧
      s' = { nailIndex := best.maxnailIndex
             pathsList := s.pathsList ++ [⟨s.nailIndex, best.maxnailIndex⟩]
             usedPaths := getPairKey s.nailIndex best.maxnailIndex :: s.usedPaths
             canvas := brighten tg s.canvas best.maxLine } := by
  unfold plannerIteration at h
  split at h
  · exact absurd h (by simp)
  · rename_i best hbest
    split_ifs at h with hEq
    · exact ⟨best, hbest, hEq, (Outcome.advanced.inj h).symm⟩

/-- Induction over the planner loop: a property kept by every advancing iteration holds
at the end of the loop. -/
theorem plannerLoop_induction {tg : ThreadGenerator} {nailsLen : Nat} (P : PlannerState → Prop)
    (hstep : ∀ s s', P s → plannerIteration tg nailsLen s = Outcome.advanced s' → P s') :
    ∀ (n : Nat) (s s' : PlannerState), plannerLoop tg nailsLen n s = some s' → P s → P s' := by
  intro n
  induction n with
  | zero =>
    intro s s' h hP
    simp only [plannerLoop, Option.some.injEq] at h
    exact h ▸ hP
  | succ n ih =>
    intro s s' h hP
    simp only [plannerLoop] at h
    split at h
    · exact absurd h (by simp)
    · simp only [Option.some.injEq] at h
      exact h ▸ hP
    · rename_i s1 hs1
      exact ih s1 s' h (hstep s s1 hP hs1)

/-! ## Chain property -/

theorem chain_getElem {R : Path → Path → Prop} :
    ∀ (l : List Path), List.Chain' R l →
      ∀ (k : Nat) (p q : Path), l[k]? = some p → l[k + 1]? = some q → R p q := by
  intro l
  induction l with
  | nil => intro _ k p q hp; simp at hp
  | cons a t ih =>
    intro hc k p q hp hq
    cases k with
    | zero =>
      cases t with
      | nil => simp at hq
      | cons b u =>
        simp only [List.getElem?_cons_zero, Option.some.injEq, zero_add,
          List.getElem?_cons_succ] at hp hq
        subst hp; subst hq
        exact (List.chain'_cons.mp hc).1
    | succ k =>
      simp only [List.getElem?_cons_succ] at hp hq
      exact ih hc.tail k p q hp hq

/-- The planner invariant behind the chain property: the paths are linked end to start,
the first one starts at `start`, and the last one ends at the current nail. -/
theorem plannerLoop_chain {tg : ThreadGenerator} {nailsLen : Nat} (start : Int) (n : Nat)
    (s s' : PlannerState) (h : plannerLoop tg nailsLen n s = some s')
    (hs : List.Chain' (fun p q : Path => p.EndingNail = q.StartingNail) s.pathsList ∧
      (∀ p ∈ s.pathsList.getLast?, p.EndingNail = s.nailIndex) ∧
      (∀ p ∈ s.pathsList.head?, p.StartingNail = start) ∧
      (s.pathsList = [] → s.nailIndex = start)) :
    List.Chain' (fun p q : Path => p.EndingNail = q.StartingNail) s'.pathsList ∧
      (∀ p ∈ s'.pathsList.getLast?, p.EndingNail = s'.nailIndex) ∧
      (∀ p ∈ s'.pathsList.head?, p.StartingNail = start) ∧
      (s'.pathsList = [] → s'.nailIndex = start) := by
  refine plannerLoop_induction
    (fun s => List.Chain' (fun p q : Path => p.EndingNail = q.StartingNail) s.pathsList ∧
      (∀ p ∈ s.pathsList.getLast?, p.EndingNail = s.nailIndex) ∧
      (∀ p ∈ s.pathsList.head?, p.StartingNail = start) ∧
      (s.pathsList = [] → s.nailIndex = start)) ?_ n s s' h hs
  rintro s1 s2 ⟨hc, hl, hh, he⟩ hadv
  obtain ⟨best, -, -, rfl⟩ := plannerIteration_advanced hadv
  refine ⟨?_, ?_, ?_, ?_⟩
  · refine List.chain'_append.mpr ⟨hc, List.chain'_singleton _, ?_⟩
    intro x hx y hy
    simp only [List.head?_cons, Option.mem_def, Option.some.injEq] at hy
    subst hy
    exact hl x hx
  · intro p hp
    have hp' : some (⟨s1.nailIndex, best.maxnailIndex⟩ : Path) = some p := by
      simpa [List.getLast?_append, Option.or] using hp
    cases hp'
    rfl
  · intro p hp
    cases hl1 : s1.pathsList with
    | nil =>
      simp only [hl1, List.nil_append, List.head?_cons, Option.mem_def, Option.some.injEq] at hp
      subst hp
      exact he hl1
    | cons a t =>
      simp only [hl1, List.cons_append, List.head?_cons, Option.mem_def, Option.some.injEq] at hp
      subst hp
      exact hh a (by simp [hl1])
  · intro hnil
    simp at hnil

/-- C1. Chain property: whenever `computePathsListFromImage` returns a path list, each
path ends at the nail where the next one starts, and the first path, when there is one,
starts at the configured starting nail. -/
theorem chain_property (tg tg' : ThreadGenerator) (sourceImage : Gray) (nailsList : List Nail)
    (paths : List Path)
    (h : computePathsListFromImage tg sourceImage nailsList = some (tg', paths)) :
    (∀ (k : Nat) (p q : Path), paths[k]? = some p → paths[k + 1]? = some q →
      p.EndingNail = q.StartingNail) ∧
    (∀ p : Path, paths[0]? = some p → p.StartingNail = tg.startingNail) := by
  unfold computePathsListFromImage at h
  simp only at h
  split at h
  · exact absurd h (by simp)
  · rename_i s hs
    simp only [Option.some.injEq, Prod.mk.injEq] at h
    obtain ⟨-, rfl⟩ := h
    have hinv := plannerLoop_chain tg.startingNail _ _ _ hs
      ⟨List.chain'_nil, by simp, by simp, fun _ => rfl⟩
    refine ⟨chain_getElem _ hinv.1, ?_⟩
    intro p hp
    refine hinv.2.2.1 p ?_
    cases hl : s.pathsList with
    | nil => simp [hl] at hp
    | cons a t => simpa [hl] using hp

/-- Witness for `chain_property`: four nails on a black 4×4 canvas. -/
theorem chain_property_witness :
    computePathsListFromImage fourNailConfig (uniformImage 0) fourNails
      = some ({ generateDictionary fourNailConfig fourNails with
                  pathsList := [⟨0, 2⟩, ⟨2, 0⟩] }, [⟨0, 2⟩, ⟨2, 0⟩]) ∧
    ((∀ (k : Nat) (p q : Path), ([⟨0, 2⟩, ⟨2, 0⟩] : List Path)[k]? = some p →
        ([⟨0, 2⟩, ⟨2, 0⟩] : List Path)[k + 1]? = some q → p.EndingNail = q.StartingNail) ∧
     (∀ p : Path, ([⟨0, 2⟩, ⟨2, 0⟩] : List Path)[0]? = some p →
        p.StartingNail = fourNailConfig.startingNail)) :=
  ⟨by decide,
   chain_property fourNailConfig
     { generateDictionary fourNailConfig fourNails with pathsList := [⟨0, 2⟩, ⟨2, 0⟩] }
     (uniformImage 0) fourNails [⟨0, 2⟩, ⟨2, 0⟩] (by decide)⟩

/-! ## Evaluations of the planner at concrete inputs -/

/-- C2, evaluated. On a black 4×4 canvas with four nails and `minimumDifference = 2`, the
planner first selects the pair (0, 2); at nail 2 the only candidate in range is nail 0,
whose pair is already used, so `maxnailIndex` keeps its initial value 0, and because
`nailIndex = 2` differs from 0 the loop appends the path (2, 0): the unordered pair
of nails 0 and 2 occurs twice in the returned list. -/
theorem no_repeat_violated :
    computePathsListFromImage fourNailConfig (uniformImage 0) fourNails
      = some ({ generateDictionary fourNailConfig fourNails with
                  pathsList := [⟨0, 2⟩, ⟨2, 0⟩] }, [⟨0, 2⟩, ⟨2, 0⟩]) ∧
    getPairKey 0 2 = getPairKey 2 0 := by
  decide

/-- C3, evaluated. With four nails, the default `minimumDifference = 10` and
`StartingNail = 1`, every candidate fails the distance test, `maxnailIndex` keeps its
initial value 0, and the planner returns the single path (1, 0), whose circular distance
`min(|1 - 0|, 4 - |1 - 0|) = 1` is below `minimumDifference`. -/
theorem angular_constraint_violated :
    (startAt 1).minimumDifference = 10 ∧
    (computePathsListFromImage (startAt 1) (uniformImage 255) fourNails).map Prod.snd
      = some [⟨1, 0⟩] ∧
    min (abs (1 - 0)) (4 - abs (1 - 0)) < (startAt 1).minimumDifference := by
  decide

/-- C4, evaluated. In the first iteration from `nailIndex = 3` with four nails and the
default `minimumDifference = 10`, every candidate is skipped, yet the iteration does not
stop the loop: it appends the path (3, 0) and moves to nail 0, and the run returns
`[(3, 0)]` instead of the empty list accumulated before that iteration. -/
theorem early_termination_violated :
    (∀ next : Nat, next < 4 →
      skipCandidate (generateDictionary (startAt 3) fourNails) 4 [] 3 next = true) ∧
    (∃ s', plannerIteration (generateDictionary (startAt 3) fourNails) 4
        { nailIndex := 3, pathsList := [], usedPaths := [], canvas := uniformImage 255 }
          = Outcome.advanced s' ∧
      s'.pathsList = [⟨3, 0⟩] ∧ s'.nailIndex = 0) ∧
    (computePathsListFromImage (startAt 3) (uniformImage 255) fourNails).map Prod.snd
      = some [⟨3, 0⟩] := by
  refine ⟨by decide, ⟨_, rfl, by decide, by decide⟩, by decide⟩

/-! ## Canvas monotonicity -/

theorem wrap64_eq {n : Int} (h1 : -2 ^ 63 ≤ n) (h2 : n < 2 ^ 63) : wrap64 n = n := by
  unfold wrap64
  omega

theorem GrayAt_SetGray (c : Gray) (px py : Int) (v : Fin 256) (x y : Int) :
    (c.SetGray px py v).GrayAt x y
      = if c.Rect.contains px py = true ∧ x = px ∧ y = py then v else c.GrayAt x y := by
  unfold Gray.SetGray Gray.GrayAt
  by_cases hin : c.Rect.contains px py = true
  · by_cases hxy : x = px ∧ y = py
    · obtain ⟨rfl, rfl⟩ := hxy
      simp [hin]
    · simp [hin, hxy]
  · simp [hin]

theorem brighten_value_ge {bf : Int} (h1 : 1 ≤ bf) (h2 : bf ≤ 2 ^ 63 - 256) (p : Fin 256) :
    p.val ≤ (uint8 (min 255 (wrap64 ((p.val : Int) + bf)))).val := by
  have hp := p.isLt
  rw [wrap64_eq (by omega) (by omega)]
  unfold uint8
  simp only
  omega

theorem brighten_monotone (tg : ThreadGenerator) (h1 : 1 ≤ tg.brightnessFactor)
    (h2 : tg.brightnessFactor ≤ 2 ^ 63 - 256) (line : List Point) :
    ∀ (c : Gray) (x y : Int), (c.GrayAt x y).val ≤ ((brighten tg c line).GrayAt x y).val := by
  induction line with
  | nil => intro c x y; exact le_refl _
  | cons p rest ih =>
    intro c x y
    unfold brighten
    rw [List.foldl_cons]
    refine le_trans ?_ (ih _ x y)
    rw [GrayAt_SetGray]
    split_ifs with hc
    · obtain ⟨-, rfl, rfl⟩ := hc
      exact brighten_value_ge h1 h2 _
    · exact le_refl _

/-- C5, counterexample. With `BrightnessFactor = 2^63 - 1`, accepted by `mergeArgs`, the
sum `pixel + tg.brightnessFactor` overflows for the pixel `(3, 2)` of intensity 1 on the
chosen line, and the iteration leaves that pixel at intensity 0. -/
theorem canvas_monotone_overflow :
    ∃ s', plannerIteration
        (generateDictionary
          (mergeArgs zeroGenerator { fourNailArgs with BrightnessFactor := 2 ^ 63 - 1 }).1
          fourNails) 4
        { nailIndex := 0, pathsList := [], usedPaths := [], canvas := uniformImage 1 }
          = Outcome.advanced s' ∧
      ((uniformImage 1).GrayAt 3 2).val = 1 ∧ (s'.canvas.GrayAt 3 2).val = 0 :=
  ⟨_, rfl, by decide, by decide⟩

/-- C5, amended. For a configuration produced by `mergeArgs` from arguments whose
`BrightnessFactor` is at most `2^63 - 256` (so that `pixel + brightnessFactor` stays
inside the 64-bit range), after every planner iteration each canvas pixel's intensity
is at least its intensity before the iteration and at most 255. -/
theorem canvas_monotone (tg0 : ThreadGenerator) (args : Args) (nailsList : List Nail)
    (nailsLen : Nat) (s s' : PlannerState) (x y : Int)
    (hbf : args.BrightnessFactor ≤ 2 ^ 63 - 256)
    (hadv : plannerIteration (generateDictionary (mergeArgs tg0 args).1 nailsList) nailsLen s
      = Outcome.advanced s') :
    (s.canvas.GrayAt x y).val ≤ (s'.canvas.GrayAt x y).val ∧
      (s'.canvas.GrayAt x y).val ≤ 255 := by
  obtain ⟨best, -, -, rfl⟩ := plannerIteration_advanced hadv
  have hb : (generateDictionary (mergeArgs tg0 args).1 nailsList).brightnessFactor
      = (if args.BrightnessFactor > 0 then args.BrightnessFactor else 50) :=
    mergeArgs_brightnessFactor tg0 args
  refine ⟨brighten_monotone _ ?_ ?_ _ _ _ _, ?_⟩
  · rw [hb]; split_ifs <;> omega
  · rw [hb]; split_ifs <;> omega
  · have := (Gray.GrayAt (brighten (generateDictionary (mergeArgs tg0 args).1 nailsList)
      s.canvas best.maxLine) x y).isLt
    omega

/-- Witness for `canvas_monotone`: the first iteration on a 4×4 canvas of intensity 1
with the default brightness factor 50. -/
theorem canvas_monotone_witness :
    fourNailArgs.BrightnessFactor ≤ 2 ^ 63 - 256 ∧
    ((uniformImage 1).GrayAt 3 2).val ≤
      ((brighten (generateDictionary (mergeArgs zeroGenerator fourNailArgs).1 fourNails)
        (uniformImage 1) [⟨4, 2⟩, ⟨3, 2⟩, ⟨2, 2⟩, ⟨1, 2⟩, ⟨0, 2⟩]).GrayAt 3 2).val ∧
    ((brighten (generateDictionary (mergeArgs zeroGenerator fourNailArgs).1 fourNails)
        (uniformImage 1) [⟨4, 2⟩, ⟨3, 2⟩, ⟨2, 2⟩, ⟨1, 2⟩, ⟨0, 2⟩]).GrayAt 3 2).val ≤ 255 :=
  ⟨by decide,
   canvas_monotone zeroGenerator fourNailArgs fourNails 4
     { nailIndex := 0, pathsList := [], usedPaths := [], canvas := uniformImage 1 }
     { nailIndex := 2, pathsList := [⟨0, 2⟩], usedPaths := ["0:2"]
       canvas := brighten (generateDictionary (mergeArgs zeroGenerator fourNailArgs).1 fourNails)
         (uniformImage 1) [⟨4, 2⟩, ⟨3, 2⟩, ⟨2, 2⟩, ⟨1, 2⟩, ⟨0, 2⟩] }
     3 2 (by decide) rfl⟩

/-! ## Scenario C -/

/-- C9, counterexample. With `Args.MaxPaths = 0`, four nails, `MinimumDifference = 2` and
a white 4×4 source image, `Generate` succeeds with two paths and `TotalLines = 2`. -/
theorem maxPaths_zero_nonempty :
    fourNailArgs.MaxPaths = 0 ∧
    ∃ tg', Generate whiteEnv zeroGenerator fourNailArgs
        = some (tg', Except.ok { TotalLines := 2, ThreadLength := 0 }) ∧
      GetPathsList tg' = [⟨0, 2⟩, ⟨2, 0⟩] :=
  ⟨rfl, _, rfl, by decide⟩

/-- C9, amended. `Args.MaxPaths = 0` counts as unset: `Generate` behaves exactly as with
`Args.MaxPaths = 10000`, the default.  The empty path list belongs to a generator whose
own field `maxPaths` is 0: there `computePathsListFromImage` returns the empty list
without a panic. -/
theorem maxPaths_zero_is_default (env : Env) (tg : ThreadGenerator) (args : Args)
    (sourceImage : Gray) (nailsList : List Nail) :
    Generate env tg { args with MaxPaths := 0 } = Generate env tg { args with MaxPaths := 10000 } ∧
    (mergeArgs tg { args with MaxPaths := 0 }).1.maxPaths = 10000 ∧
    computePathsListFromImage { tg with maxPaths := 0 } sourceImage nailsList
      = some ({ generateDictionary { tg with maxPaths := 0 } nailsList with pathsList := [] },
          []) := by
  refine ⟨?_, ?_, rfl⟩
  · have h : mergeArgs tg { args with MaxPaths := 0 }
        = mergeArgs tg { args with MaxPaths := 10000 } := by
      unfold mergeArgs
      by_cases h1 : args.NailsQuantity > 0 <;> by_cases h2 : args.ImgSize > 0 <;>
        simp only [h1, h2, if_true, if_false, show ¬ ((0 : Int) > 0) by decide,
          show (10000 : Int) > 0 by decide] <;> rfl
    unfold Generate
    rw [h]
  · rw [mergeArgs_maxPaths]; simp

/-! ## Rasterisation -/

theorem bresenhamLoop_succ (xD yD sX sY : Int) (e : Point) (fuel : Nat) (p : Point) (err : Int) :
    bresenhamLoop xD yD sX sY e (fuel + 1) p err
      = if p = e then some [p]
        else (bresenhamLoop xD yD sX sY e fuel (nextPoint xD yD sX sY p err)
                (nextError xD yD err)).map (fun rest => p :: rest) := by
  simp only [bresenhamLoop, nextPoint, nextError]

theorem step_arith {dx yD rx ry err : Int} (h0 : 0 ≤ rx) (h1 : rx ≤ dx) (h2 : 0 ≤ ry)
    (h3 : ry ≤ -yD) (he : err = dx + yD - dx * ry - yD * rx) (hne : 0 < rx + ry) :
    (2 * err ≥ yD → 1 ≤ rx) ∧ (2 * err ≤ dx → 1 ≤ ry) ∧ (2 * err ≥ yD ∨ 2 * err ≤ dx) := by
  refine ⟨?_, ?_, ?_⟩
  · intro hx
    by_contra hlt
    have hrx : rx = 0 := by omega
    have hry : 1 ≤ ry := by omega
    have hprod : dx * 1 ≤ dx * ry := mul_le_mul_of_nonneg_left hry (by omega)
    rw [hrx] at he
    simp only [mul_zero, sub_zero, mul_one] at he hprod
    omega
  · intro hy
    by_contra hlt
    have hry : ry = 0 := by omega
    have hrx : 1 ≤ rx := by omega
    have hprod : (-yD) * 1 ≤ (-yD) * rx := mul_le_mul_of_nonneg_left hrx (by omega)
    rw [hry] at he
    simp only [mul_zero, sub_zero, mul_one, neg_mul] at he hprod
    omega
  · omega

theorem rem_zero_iff {sX sY : Int} (hsX : sX = 1 ∨ sX = -1) (hsY : sY = 1 ∨ sY = -1)
    (e p : Point) : p = e ↔ remX sX e p = 0 ∧ remY sY e p = 0 := by
  unfold remX remY
  constructor
  · rintro rfl; simp
  · rintro ⟨hx, hy⟩
    cases p with | mk px py =>
    cases e with | mk ex ey =>
    simp only [Point.mk.injEq]
    simp only at hx hy
    rcases hsX with rfl | rfl <;> rcases hsY with rfl | rfl <;> constructor <;> omega

theorem LineInv_step {dx yD sX sY : Int} (hsX : sX = 1 ∨ sX = -1) (hsY : sY = 1 ∨ sY = -1)
    {e p : Point} {err : Int} (hinv : LineInv dx yD sX sY e p err) (hne : p ≠ e) :
    LineInv dx yD sX sY e (nextPoint dx yD sX sY p err) (nextError dx yD err) ∧
    remX sX e (nextPoint dx yD sX sY p err) + remY sY e (nextPoint dx yD sX sY p err)
      < remX sX e p + remY sY e p ∧
    remX sX e p - 1 ≤ remX sX e (nextPoint dx yD sX sY p err) ∧
    remY sY e p - 1 ≤ remY sY e (nextPoint dx yD sX sY p err) := by
  obtain ⟨h0, h1, h2, h3, he⟩ := hinv
  have hpos : 0 < remX sX e p + remY sY e p := by
    rcases lt_or_eq_of_le (add_nonneg h0 h2) with h | h
    · exact h
    · exact absurd ((rem_zero_iff hsX hsY e p).mpr ⟨by omega, by omega⟩) hne
  obtain ⟨hx, hy, hxy⟩ := step_arith h0 h1 h2 h3 he hpos
  have hXstep : remX sX e ⟨p.X + sX, p.Y⟩ = remX sX e p - 1 := by
    unfold remX; rcases hsX with rfl | rfl <;> simp <;> ring
  have hYstep : ∀ x : Int, remY sY e ⟨x, p.Y + sY⟩ = remY sY e p - 1 := by
    intro x; unfold remY; rcases hsY with rfl | rfl <;> simp <;> ring
  have hXsame : ∀ x y y' : Int, remX sX e ⟨x, y⟩ = remX sX e ⟨x, y'⟩ := fun _ _ _ => rfl
  have hYsame : ∀ x x' y : Int, remY sY e ⟨x, y⟩ = remY sY e ⟨x', y⟩ := fun _ _ _ => rfl
  have hpX : remX sX e ⟨p.X, p.Y⟩ = remX sX e p := rfl
  have hpY : remY sY e ⟨p.X, p.Y⟩ = remY sY e p := rfl
  unfold LineInv nextPoint nextError
  by_cases cx : 2 * err ≥ yD <;> by_cases cy : 2 * err ≤ dx
  · have e1 : remX sX e ⟨p.X + sX, p.Y + sY⟩ = remX sX e p - 1 :=
      (hXsame _ _ _).trans hXstep
    have e2 : remY sY e ⟨p.X + sX, p.Y + sY⟩ = remY sY e p - 1 := hYstep _
    simp only [cx, cy, if_true, e1, e2]
    have := hx cx; have := hy cy
    refine ⟨⟨by omega, by omega, by omega, by omega, ?_⟩, by omega, by omega, by omega⟩
    rw [he]; ring
  · have e1 : remX sX e ⟨p.X + sX, p.Y⟩ = remX sX e p - 1 := hXstep
    have e2 : remY sY e ⟨p.X + sX, p.Y⟩ = remY sY e p := hYsame _ _ _
    simp only [cx, cy, if_true, if_false, e1, e2]
    have := hx cx
    refine ⟨⟨by omega, by omega, by omega, by omega, ?_⟩, by omega, by omega, by omega⟩
    rw [he]; ring
  · have e1 : remX sX e ⟨p.X, p.Y + sY⟩ = remX sX e p := hXsame _ _ _
    have e2 : remY sY e ⟨p.X, p.Y + sY⟩ = remY sY e p - 1 := hYstep _
    simp only [cx, cy, if_true, if_false, e1, e2]
    have := hy cy
    refine ⟨⟨by omega, by omega, by omega, by omega, ?_⟩, by omega, by omega, by omega⟩
    rw [he]; ring
  · exact absurd hxy (by simp only [not_or]; exact ⟨cx, cy⟩)

/-- From a state satisfying the invariant, fuel above the number of steps still to take
lets the loop of `bresenham` finish; the result starts at the current point, stops at
`e`, never moves away from `e` and has no repeated pixel. -/
theorem bresenhamLoop_spec {dx yD sX sY : Int} (hsX : sX = 1 ∨ sX = -1)
    (hsY : sY = 1 ∨ sY = -1) (e : Point) :
    ∀ (fuel : Nat) (p : Point) (err : Int), LineInv dx yD sX sY e p err →
      remX sX e p + remY sY e p < (fuel : Int) →
      ∃ pts, bresenhamLoop dx yD sX sY e fuel p err = some pts ∧
        pts.head? = some p ∧ pts.getLast? = some e ∧
        (∀ q ∈ pts, remX sX e q + remY sY e q ≤ remX sX e p + remY sY e p) ∧
        pts.Nodup := by
  intro fuel
  induction fuel with
  | zero =>
    intro p err hinv hfuel
    have h0 := hinv.1
    have h2 := hinv.2.2.1
    simp only [Nat.cast_zero] at hfuel
    omega
  | succ fuel ih =>
    intro p err hinv hfuel
    rw [bresenhamLoop_succ]
    by_cases hpe : p = e
    · subst hpe
      exact ⟨[p], by simp, rfl, rfl, by simp, List.nodup_singleton _⟩
    · obtain ⟨hinv', hdec, -, -⟩ := LineInv_step hsX hsY hinv hpe
      obtain ⟨pts, hrun, hhead, hlast, hle, hnd⟩ :=
        ih (nextPoint dx yD sX sY p err) (nextError dx yD err) hinv'
          (by push_cast at hfuel; omega)
      refine ⟨p :: pts, by simp [hpe, hrun], rfl, ?_, ?_, ?_⟩
      · cases pts with
        | nil => simp at hhead
        | cons a t => simpa [List.getLast?_cons_cons] using hlast
      · intro q hq
        rcases List.mem_cons.mp hq with rfl | hq
        · exact le_refl _
        · exact le_of_lt (lt_of_le_of_lt (hle q hq) hdec)
      · refine List.nodup_cons.mpr ⟨?_, hnd⟩
        intro hmem
        have := hle p hmem
        omega

theorem LineInv_start (A B : Point) :
    LineInv (abs (B.X - A.X)) (-abs (B.Y - A.Y)) (if A.X < B.X then 1 else -1)
      (if A.Y < B.Y then 1 else -1) B A (abs (B.X - A.X) + -abs (B.Y - A.Y)) ∧
    remX (if A.X < B.X then 1 else -1) B A = abs (B.X - A.X) ∧
    remY (if A.Y < B.Y then 1 else -1) B A = abs (B.Y - A.Y) := by
  have hx : remX (if A.X < B.X then 1 else -1) B A = abs (B.X - A.X) := by
    unfold remX abs
    split_ifs <;> omega
  have hy : remY (if A.Y < B.Y then 1 else -1) B A = abs (B.Y - A.Y) := by
    unfold remY abs
    split_ifs <;> omega
  refine ⟨?_, hx, hy⟩
  unfold LineInv
  rw [hx, hy]
  have h1 : 0 ≤ abs (B.X - A.X) := by unfold abs; omega
  have h2 : 0 ≤ abs (B.Y - A.Y) := by unfold abs; omega
  refine ⟨h1, le_refl _, h2, by omega, by ring⟩

theorem sign_cases (a b : Int) :
    (if a < b then (1 : Int) else -1) = 1 ∨ (if a < b then (1 : Int) else -1) = -1 := by
  split_ifs
  · exact Or.inl rfl
  · exact Or.inr rfl

/-- More fuel does not change a result of the loop of `bresenham`. -/
theorem bresenhamLoop_mono (dx yD sX sY : Int) (e : Point) :
    ∀ (fuel : Nat) (p : Point) (err : Int) (pts : List Point),
      bresenhamLoop dx yD sX sY e fuel p err = some pts →
      ∀ extra : Nat, bresenhamLoop dx yD sX sY e (fuel + extra) p err = some pts := by
  intro fuel
  induction fuel with
  | zero => intro p err pts h; simp [bresenhamLoop] at h
  | succ fuel ih =>
    intro p err pts h extra
    rw [show fuel + 1 + extra = (fuel + extra) + 1 by omega, bresenhamLoop_succ]
    rw [bresenhamLoop_succ] at h
    by_cases hpe : p = e
    · simpa [hpe] using h
    · simp only [hpe, if_false, Option.map_eq_some'] at h ⊢
      obtain ⟨rest, hrest, rfl⟩ := h
      exact ⟨rest, ih _ _ _ hrest extra, rfl⟩

/-- The loop of `bresenham` finishes within `bresenhamBound` passes, and more fuel does
not change its result; the result starts at `A`, ends at `B` and repeats no pixel. -/
theorem bresenhamFuel_enough (A B : Point) (extra : Nat) :
    bresenhamFuel (bresenhamBound A B + extra) A B = some (bresenham A B) ∧
    (bresenham A B).head? = some A ∧ (bresenham A B).getLast? = some B ∧
    (bresenham A B).Nodup := by
  obtain ⟨hinv, hx, hy⟩ := LineInv_start A B
  have hb : remX (if A.X < B.X then 1 else -1) B A + remY (if A.Y < B.Y then 1 else -1) B A
      < ((bresenhamBound A B : Nat) : Int) := by
    rw [hx, hy]; unfold abs bresenhamBound; push_cast; omega
  obtain ⟨pts, hrun, hhead, hlast, -, hnd⟩ :=
    bresenhamLoop_spec (sign_cases A.X B.X) (sign_cases A.Y B.Y) B (bresenhamBound A B) A _
      hinv hb
  have hdef : bresenham A B = pts := by
    unfold bresenham bresenhamFuel
    simp only [hrun, Option.getD_some]
  rw [hdef]
  refine ⟨?_, hhead, hlast, hnd⟩
  unfold bresenhamFuel
  exact bresenhamLoop_mono _ _ _ _ _ _ _ _ _ hrun extra

/-- C6. Endpoint inclusion: for all integer points `A` and `B` the loop of `bresenham`
finishes (with `bresenhamBound A B` passes or more), and its result starts with `A`,
ends with `B`, contains `A` exactly once and `B` exactly once, repeats no pixel, and is
the single pixel `A` when `A = B`. -/
theorem bresenham_endpoints (A B : Point) :
    (∀ extra : Nat, bresenhamFuel (bresenhamBound A B + extra) A B = some (bresenham A B)) ∧
    (bresenham A B).head? = some A ∧ (bresenham A B).getLast? = some B ∧
    (bresenham A B).count A = 1 ∧ (bresenham A B).count B = 1 ∧
    (bresenham A B).Nodup ∧ bresenham A A = [A] := by
  obtain ⟨-, hhead, hlast, hnd⟩ := bresenhamFuel_enough A B 0
  refine ⟨fun extra => (bresenhamFuel_enough A B extra).1, hhead, hlast, ?_, ?_, hnd, ?_⟩
  · exact List.count_eq_one_of_mem hnd (List.mem_of_mem_head? hhead)
  · exact List.count_eq_one_of_mem hnd (List.mem_of_mem_getLast? hlast)
  · simp [bresenham, bresenhamFuel, bresenhamBound, bresenhamLoop]

/-! ## Direction of rasterisation -/

theorem mirror_eq_iff (A B p : Point) : mirror A B p = A ↔ p = B := by
  cases p with | mk px py =>
  cases A with | mk ax ay =>
  cases B with | mk bx b_y =>
  simp only [mirror, Point.mk.injEq]
  constructor <;> rintro ⟨h1, h2⟩ <;> constructor <;> omega

/-- Running the loop of `bresenham` towards `A` from the reflection of `p`, with the
opposite step directions, yields the reflection of the run towards `B` from `p`. -/
theorem bresenhamLoop_mirror {dx yD sX sY sX' sY' : Int} (hsX : sX = 1 ∨ sX = -1)
    (hsY : sY = 1 ∨ sY = -1) (hX : sX' = -sX ∨ dx = 0) (hY : sY' = -sY ∨ yD = 0)
    (A B : Point) :
    ∀ (fuel : Nat) (p : Point) (err : Int), LineInv dx yD sX sY B p err →
      bresenhamLoop dx yD sX' sY' A fuel (mirror A B p) err
        = (bresenhamLoop dx yD sX sY B fuel p err).map (List.map (mirror A B)) := by
  intro fuel
  induction fuel with
  | zero => intro p err _; simp [bresenhamLoop]
  | succ fuel ih =>
    intro p err hinv
    rw [bresenhamLoop_succ, bresenhamLoop_succ]
    by_cases hpe : p = B
    · have hm : mirror A B p = A := (mirror_eq_iff A B p).mpr hpe
      rw [if_pos hpe, if_pos hm]
      simp only [Option.map_some', List.map_cons, List.map_nil, hm]
    · have hm : mirror A B p ≠ A := fun h => hpe ((mirror_eq_iff A B p).mp h)
      obtain ⟨hinv', -, -, -⟩ := LineInv_step hsX hsY hinv hpe
      have hnext : nextPoint dx yD sX' sY' (mirror A B p) err
          = mirror A B (nextPoint dx yD sX sY p err) := by
        obtain ⟨h0, h1, h2, h3, he⟩ := hinv
        have hpos : 0 < remX sX B p + remY sY B p := by
          rcases lt_or_eq_of_le (add_nonneg h0 h2) with h | h
          · exact h
          · exact absurd ((rem_zero_iff hsX hsY B p).mpr ⟨by omega, by omega⟩) hpe
        obtain ⟨hx, hy, -⟩ := step_arith h0 h1 h2 h3 he hpos
        simp only [nextPoint, mirror, Point.mk.injEq]
        constructor
        · by_cases cx : 2 * err ≥ yD
          · have := hx cx
            rcases hX with hX | hX
            · simp only [cx, if_true, hX]; ring
            · omega
          · simp only [cx, if_false]
        · by_cases cy : 2 * err ≤ dx
          · have := hy cy
            rcases hY with hY | hY
            · simp only [cy, if_true, hY]; ring
            · omega
          · simp only [cy, if_false]
      simp only [hpe, hm, if_false, hnext, ih _ _ hinv', Option.map_map]
      congr 1

/-- C7, counterexample. The pixel `(1, 1)` is on the line rasterised from `(0, 0)` to
`(2, 1)` but not on the line rasterised from `(2, 1)` to `(0, 0)`. -/
theorem bresenham_direction_dependent :
    (⟨1, 1⟩ : Point) ∈ bresenham ⟨0, 0⟩ ⟨2, 1⟩ ∧ (⟨1, 1⟩ : Point) ∉ bresenham ⟨2, 1⟩ ⟨0, 0⟩ := by
  decide

/-- C7, amended. For all integer points `A` and `B`, the pixel sequence of
`bresenham(B, A)` is the reflection of the pixel sequence of `bresenham(A, B)` through
the midpoint of `A` and `B` (pixel `p` becomes `A + B - p`); the two pixel sets have the
same number of pixels. -/
theorem bresenham_reverse_mirror (A B : Point) :
    bresenham B A = (bresenham A B).map (mirror A B) ∧
    (bresenham B A).length = (bresenham A B).length := by
  have hmain : bresenham B A = (bresenham A B).map (mirror A B) := by
    obtain ⟨hinv, -, -⟩ := LineInv_start A B
    have hrun := (bresenhamFuel_enough A B 0).1
    have hbound : bresenhamBound B A = bresenhamBound A B := by
      unfold bresenhamBound; omega
    have hdx : abs (A.X - B.X) = abs (B.X - A.X) := by unfold abs; omega
    have hdy : abs (A.Y - B.Y) = abs (B.Y - A.Y) := by unfold abs; omega
    have hX : (if B.X < A.X then (1 : Int) else -1) = -(if A.X < B.X then (1 : Int) else -1) ∨
        abs (B.X - A.X) = 0 := by
      unfold abs; split_ifs <;> omega
    have hY : (if B.Y < A.Y then (1 : Int) else -1) = -(if A.Y < B.Y then (1 : Int) else -1) ∨
        -abs (B.Y - A.Y) = 0 := by
      unfold abs; split_ifs <;> omega
    have hm := bresenhamLoop_mirror (sign_cases A.X B.X) (sign_cases A.Y B.Y) hX hY A B
      (bresenhamBound A B) A _ hinv
    have hA : mirror A B A = B := by
      cases A; cases B; simp [mirror]
    rw [hA] at hm
    simp only [bresenhamFuel, Nat.add_zero] at hrun
    rw [hrun] at hm
    unfold bresenham
    rw [hbound]
    conv_lhs => unfold bresenhamFuel
    simp only [hdx, hdy]
    rw [hm]
    simp only [Option.map_some', Option.getD_some]
    rfl
  exact ⟨hmain, by rw [hmain, List.length_map]⟩

/-! ## Pair keys -/

theorem digitChar_spec (k : Nat) (hk : k < 10) :
    (Nat.digitChar k).toNat - 48 = k ∧ Nat.digitChar k ≠ ':' := by
  interval_cases k <;> decide

theorem decodeDigits_append (l : List Char) (c : Char) :
    decodeDigits (l ++ [c]) = 10 * decodeDigits l + (c.toNat - 48) := by
  simp [decodeDigits, List.foldl_append]

theorem toDigitsCore_spec :
    ∀ (fuel n : Nat) (ds : List Char), n < fuel →
      ∃ l, Nat.toDigitsCore 10 fuel n ds = l ++ ds ∧ decodeDigits l = n ∧ ':' ∉ l := by
  intro fuel
  induction fuel with
  | zero => intro n ds h; omega
  | succ fuel ih =>
    intro n ds h
    obtain ⟨hval, hcolon⟩ := digitChar_spec (n % 10) (Nat.mod_lt _ (by decide))
    simp only [Nat.toDigitsCore]
    by_cases h0 : n / 10 = 0
    · refine ⟨[Nat.digitChar (n % 10)], by simp [h0], ?_, ?_⟩
      · have := decodeDigits_append [] (Nat.digitChar (n % 10))
        simp only [List.nil_append] at this
        rw [this, hval]
        simp only [decodeDigits, List.foldl_nil]
        omega
      · simpa using Ne.symm hcolon
    · obtain ⟨l, hl, hdec, hmem⟩ := ih (n / 10) (Nat.digitChar (n % 10) :: ds) (by omega)
      refine ⟨l ++ [Nat.digitChar (n % 10)], by simp [h0, hl], ?_, ?_⟩
      · rw [decodeDigits_append, hdec, hval]; omega
      · simp only [List.mem_append, List.mem_singleton, not_or]
        exact ⟨hmem, Ne.symm hcolon⟩

theorem toDigits_spec (n : Nat) :
    decodeDigits (Nat.toDigits 10 n) = n ∧ ':' ∉ Nat.toDigits 10 n := by
  obtain ⟨l, hl, hdec, hmem⟩ := toDigitsCore_spec (n + 1) n [] (by omega)
  simp only [List.append_nil] at hl
  unfold Nat.toDigits
  rw [hl]
  exact ⟨hdec, hmem⟩

theorem split_at_colon :
    ∀ (l1 l2 r1 r2 : List Char), ':' ∉ l1 → ':' ∉ l2 →
      l1 ++ ':' :: r1 = l2 ++ ':' :: r2 → l1 = l2 ∧ r1 = r2 := by
  intro l1
  induction l1 with
  | nil =>
    intro l2 r1 r2 _ h2 h
    cases l2 with
    | nil => simpa using h
    | cons c t =>
      simp only [List.nil_append, List.cons_append, List.cons.injEq] at h
      exact absurd h.1 (fun hc => h2 (by simp [← hc]))
  | cons a t ih =>
    intro l2 r1 r2 h1 h2 h
    cases l2 with
    | nil =>
      simp only [List.nil_append, List.cons_append, List.cons.injEq] at h
      exact absurd h.1 (fun hc => h1 (by simp [hc]))
    | cons c u =>
      simp only [List.cons_append, List.cons.injEq] at h
      obtain ⟨rfl, hrest⟩ := h
      obtain ⟨rfl, rfl⟩ := ih u r1 r2 (fun hm => h1 (List.mem_cons_of_mem _ hm))
        (fun hm => h2 (List.mem_cons_of_mem _ hm)) hrest
      exact ⟨rfl, rfl⟩

theorem getPairKey_data {a b : Nat} (h : a < b) :
    (getPairKey a b).data = Nat.toDigits 10 a ++ ':' :: Nat.toDigits 10 b := by
  have hlt : (a : Int) < (b : Int) := by exact_mod_cast h
  simp only [getPairKey, hlt, if_true]
  show (Nat.repr a ++ ":" ++ Nat.repr b).data = _
  simp [Nat.repr, String.data_append, List.asString]

/-- The key is symmetric in its two arguments. -/
theorem getPairKey_comm (a b : Int) : getPairKey a b = getPairKey b a := by
  unfold getPairKey
  rcases lt_trichotomy a b with h | h | h
  · have h' : ¬ b < a := by omega
    have h2 : b > a := h
    simp [h, h', h2]
  · subst h; rfl
  · have h' : ¬ a < b := by omega
    have h2 : a > b := h
    simp [h, h', h2]

/-- Distinct ordered index pairs have distinct keys. -/
theorem getPairKey_injective {a b c d : Nat} (hab : a < b) (hcd : c < d)
    (h : getPairKey a b = getPairKey c d) : a = c ∧ b = d := by
  have hdata := congrArg String.data h
  rw [getPairKey_data hab, getPairKey_data hcd] at hdata
  obtain ⟨h1, h2⟩ := split_at_colon _ _ _ _ (toDigits_spec a).2 (toDigits_spec c).2 hdata
  constructor
  · rw [← (toDigits_spec a).1, h1, (toDigits_spec c).1]
  · rw [← (toDigits_spec b).1, h2, (toDigits_spec d).1]

/-! ## The line dictionary -/

theorem mapGet_mapSet (d : Dict) (k : String) (v : List Nail) (k' : String) :
    mapGet (mapSet d k v) k' = if k = k' then v else mapGet d k' := by
  induction d with
  | nil => simp [mapSet, mapGet]
  | cons kv rest ih =>
    obtain ⟨k0, v0⟩ := kv
    by_cases h0 : k0 = k
    · subst h0
      by_cases h1 : k0 = k' <;> simp [mapSet, mapGet, h1]
    · by_cases h1 : k0 = k'
      · subst h1
        have h2 : ¬ k = k0 := fun h => h0 h.symm
        simp [mapSet, mapGet, h0, h2]
      · simp [mapSet, mapGet, h0, h1, ih]

theorem keys_mapSet (d : Dict) (k : String) (v : List Nail) (hk : k ∉ d.map Prod.fst) :
    (mapSet d k v).map Prod.fst = d.map Prod.fst ++ [k] := by
  induction d with
  | nil => simp [mapSet]
  | cons kv rest ih =>
    obtain ⟨k0, v0⟩ := kv
    simp only [List.map_cons, List.mem_cons, not_or] at hk
    have h0 : ¬ k0 = k := fun h => hk.1 h.symm
    simp [mapSet, h0, ih hk.2]

theorem setAll_keys :
    ∀ (kvs : List (String × List Nail)) (d : Dict), (kvs.map Prod.fst).Nodup →
      (∀ k ∈ kvs.map Prod.fst, k ∉ d.map Prod.fst) →
      (setAll d kvs).map Prod.fst = d.map Prod.fst ++ kvs.map Prod.fst := by
  intro kvs
  induction kvs with
  | nil => intro d _ _; simp [setAll]
  | cons kv rest ih =>
    intro d hnd hdisj
    simp only [List.map_cons, List.nodup_cons] at hnd
    have hk : kv.1 ∉ d.map Prod.fst := hdisj kv.1 (by simp)
    have hstep : setAll d (kv :: rest) = setAll (mapSet d kv.1 kv.2) rest := rfl
    rw [hstep, ih (mapSet d kv.1 kv.2) hnd.2 ?_, keys_mapSet d kv.1 kv.2 hk]
    · simp
    · intro k hkr
      rw [keys_mapSet d kv.1 kv.2 hk]
      simp only [List.mem_append, List.mem_singleton, not_or]
      refine ⟨hdisj k (by simp only [List.map_cons]; exact List.mem_cons_of_mem _ hkr), ?_⟩
      rintro rfl
      exact hnd.1 hkr

theorem setAll_get_of_not_mem :
    ∀ (kvs : List (String × List Nail)) (d : Dict) (k : String), k ∉ kvs.map Prod.fst →
      mapGet (setAll d kvs) k = mapGet d k := by
  intro kvs
  induction kvs with
  | nil => intro d k _; rfl
  | cons kv rest ih =>
    intro d k hk
    simp only [List.map_cons, List.mem_cons, not_or] at hk
    have hstep : setAll d (kv :: rest) = setAll (mapSet d kv.1 kv.2) rest := rfl
    rw [hstep, ih _ k hk.2, mapGet_mapSet]
    have : ¬ kv.1 = k := fun h => hk.1 h.symm
    simp [this]

theorem setAll_get_of_mem :
    ∀ (kvs : List (String × List Nail)) (d : Dict), (kvs.map Prod.fst).Nodup →
      ∀ kv ∈ kvs, mapGet (setAll d kvs) kv.1 = kv.2 := by
  intro kvs
  induction kvs with
  | nil => intro d _ kv h; simp at h
  | cons kv0 rest ih =>
    intro d hnd kv hkv
    simp only [List.map_cons, List.nodup_cons] at hnd
    have hstep : setAll d (kv0 :: rest) = setAll (mapSet d kv0.1 kv0.2) rest := rfl
    rw [hstep]
    rcases List.mem_cons.mp hkv with rfl | hmem
    · rw [setAll_get_of_not_mem _ _ _ hnd.1, mapGet_mapSet]
      simp
    · exact ih _ hnd.2 kv hmem

theorem setAll_append (d : Dict) (l1 l2 : List (String × List Nail)) :
    setAll d (l1 ++ l2) = setAll (setAll d l1) l2 := by
  simp [setAll, List.foldl_append]

theorem generateDictionaryRow_eq (nailsList : List Nail) (i : Nat) (js : List Nat) (d : Dict) :
    generateDictionaryRow nailsList i js d
      = setAll d (js.map (fun j => dictionaryEntry nailsList (i, j))) := by
  simp [generateDictionaryRow, setAll, List.foldl_map, dictionaryEntry]

theorem foldl_rows (nailsList : List Nail) (n : Nat) :
    ∀ (is : List Nat) (d : Dict),
      is.foldl (fun (d : Dict) (i : Nat) =>
        generateDictionaryRow nailsList i (List.range' (i + 1) (n - (i + 1))) d) d
      = setAll d ((is.flatMap (fun (i : Nat) =>
          (List.range' (i + 1) (n - (i + 1))).map (fun (j : Nat) => (i, j)))).map
            (dictionaryEntry nailsList)) := by
  intro is
  induction is with
  | nil => intro d; rfl
  | cons i rest ih =>
    intro d
    rw [List.foldl_cons, ih, generateDictionaryRow_eq, List.flatMap_cons, List.map_append,
      setAll_append, List.map_map]
    rfl

/-- The dictionary is the result of assigning the entries of all index pairs in order. -/
theorem buildDictionary_eq (nailsList : List Nail) :
    buildDictionary nailsList
      = setAll [] ((nailPairs nailsList.length).map (dictionaryEntry nailsList)) := by
  unfold buildDictionary nailPairs
  exact foldl_rows nailsList nailsList.length _ []

theorem mem_nailPairs (n i j : Nat) : (i, j) ∈ nailPairs n ↔ i < j ∧ j < n := by
  simp only [nailPairs, List.mem_flatMap, List.mem_range, List.mem_map, List.mem_range'_1,
    Prod.mk.injEq]
  constructor
  · rintro ⟨a, ha, b, hb, rfl, rfl⟩
    omega
  · rintro ⟨h1, h2⟩
    exact ⟨i, by omega, j, by omega, rfl, rfl⟩

theorem nodup_nailPairs (n : Nat) : (nailPairs n).Nodup := by
  unfold nailPairs
  rw [List.nodup_flatMap]
  refine ⟨?_, ?_⟩
  · intro i _
    exact (List.nodup_range' _ _).map (fun a b h => (Prod.mk.inj h).2)
  · refine (List.nodup_range n).pairwise_of_forall_ne ?_
    intro a _ b _ hab
    simp only [Function.onFun, List.disjoint_left, List.mem_map, not_exists, not_and]
    rintro x ⟨j, _, rfl⟩ j' _ h
    exact hab (Prod.mk.inj h).1.symm

theorem length_rows (n : Nat) :
    ∀ m : Nat, m ≤ n →
      2 * ((List.range m).flatMap (fun (i : Nat) =>
        (List.range' (i + 1) (n - (i + 1))).map (fun (j : Nat) => (i, j)))).length
        + m * (m + 1) = 2 * m * n := by
  intro m
  induction m with
  | zero => intro _; simp
  | succ m ih =>
    intro hm
    have ih' := ih (by omega)
    rw [List.range_succ, List.flatMap_append, List.length_append]
    simp only [List.flatMap_cons, List.flatMap_nil, List.append_nil, List.length_map,
      List.length_range']
    have hsub : n - (m + 1) + (m + 1) = n := by omega
    nlinarith [ih', hsub]

theorem length_nailPairs (n : Nat) : (nailPairs n).length = n * (n - 1) / 2 := by
  have h := length_rows n n (le_refl n)
  have h' : (nailPairs n).length = ((List.range n).flatMap (fun (i : Nat) =>
        (List.range' (i + 1) (n - (i + 1))).map (fun (j : Nat) => (i, j)))).length := rfl
  rw [h']
  cases n with
  | zero => simp
  | succ k =>
    simp only [Nat.add_sub_cancel]
    have : 2 * ((List.range (k + 1)).flatMap (fun (i : Nat) =>
        (List.range' (i + 1) (k + 1 - (i + 1))).map (fun (j : Nat) => (i, j)))).length
        = (k + 1) * k := by nlinarith [h]
    omega

theorem nodup_keys (nailsList : List Nail) (n : Nat) :
    (((nailPairs n).map (dictionaryEntry nailsList)).map Prod.fst).Nodup := by
  rw [List.map_map]
  refine (nodup_nailPairs n).map_on ?_
  rintro ⟨a, b⟩ hab ⟨c, d⟩ hcd h
  simp only [Function.comp, dictionaryEntry] at h
  obtain ⟨rfl, rfl⟩ := getPairKey_injective ((mem_nailPairs n a b).mp hab).1
    ((mem_nailPairs n c d).mp hcd).1 h
  rfl

theorem buildDictionary_length (nailsList : List Nail) :
    (buildDictionary nailsList).length = nailsList.length * (nailsList.length - 1) / 2 := by
  have h := setAll_keys _ [] (nodup_keys nailsList nailsList.length) (by simp)
  rw [← buildDictionary_eq] at h
  have hlen := congrArg List.length h
  simp only [List.length_map, List.map_nil, List.nil_append] at hlen
  rw [hlen, length_nailPairs]

theorem buildDictionary_get (nailsList : List Nail) {i j : Nat} (hij : i < j)
    (hj : j < nailsList.length) :
    mapGet (buildDictionary nailsList) (getPairKey i j)
      = bresenham (nailsList.getD i ⟨0, 0⟩) (nailsList.getD j ⟨0, 0⟩) := by
  rw [buildDictionary_eq]
  exact setAll_get_of_mem _ [] (nodup_keys nailsList nailsList.length)
    (dictionaryEntry nailsList (i, j))
    (List.mem_map_of_mem _ ((mem_nailPairs _ i j).mpr ⟨hij, hj⟩))

/-- C8. Dictionary completeness and symmetry: for a nail list of length `N`,
`generateDictionary` produces a dictionary with exactly `N * (N - 1) / 2` entries under
pairwise distinct keys, and for all `i ≠ j` below `N` the lookups under
`getPairKey(i, j)` and `getPairKey(j, i)` give the same entry, which is
`bresenham(nails[min(i, j)], nails[max(i, j)])`. -/
theorem dictionary_complete_symmetric (tg : ThreadGenerator) (nailsList : List Nail) (i j : Nat)
    (hi : i < nailsList.length) (hj : j < nailsList.length) (hne : i ≠ j) :
    (generateDictionary tg nailsList).pathsDictionary.length
      = nailsList.length * (nailsList.length - 1) / 2 ∧
    ((generateDictionary tg nailsList).pathsDictionary.map Prod.fst).Nodup ∧
    mapGet (generateDictionary tg nailsList).pathsDictionary (getPairKey i j)
      = mapGet (generateDictionary tg nailsList).pathsDictionary (getPairKey j i) ∧
    ∀ a b : Nail, nailsList[min i j]? = some a → nailsList[max i j]? = some b →
      mapGet (generateDictionary tg nailsList).pathsDictionary (getPairKey i j)
        = bresenham a b := by
  have hdict : (generateDictionary tg nailsList).pathsDictionary = buildDictionary nailsList :=
    rfl
  rw [hdict]
  refine ⟨buildDictionary_length nailsList, ?_, by rw [getPairKey_comm], ?_⟩
  · have h := setAll_keys _ [] (nodup_keys nailsList nailsList.length) (by simp)
    rw [← buildDictionary_eq] at h
    rw [h]
    simpa using nodup_keys nailsList nailsList.length
  · intro a b ha hb
    have hkey : getPairKey i j = getPairKey ((min i j : Nat) : Int) ((max i j : Nat) : Int) := by
      rcases Nat.lt_or_gt_of_ne hne with h | h
      · rw [min_eq_left h.le, max_eq_right h.le]
      · rw [min_eq_right h.le, max_eq_left h.le, getPairKey_comm]
    have hlt : min i j < max i j := by
      rcases Nat.lt_or_gt_of_ne hne with h | h
      · rw [min_eq_left h.le, max_eq_right h.le]; exact h
      · rw [min_eq_right h.le, max_eq_left h.le]; exact h
    have hmax : max i j < nailsList.length := max_lt hi hj
    rw [hkey, buildDictionary_get nailsList hlt hmax]
    have ha' : nailsList.getD (min i j) ⟨0, 0⟩ = a := by
      rw [List.getD_eq_getElem?_getD, ha]; rfl
    have hb' : nailsList.getD (max i j) ⟨0, 0⟩ = b := by
      rw [List.getD_eq_getElem?_getD, hb]; rfl
    rw [ha', hb']

/-- Witness for `dictionary_complete_symmetric`: four nails, `i = 2`, `j = 0`. -/
theorem dictionary_complete_symmetric_witness :
    (2 < fourNails.length ∧ 0 < fourNails.length ∧ (2 : Nat) ≠ 0) ∧
    (generateDictionary zeroGenerator fourNails).pathsDictionary.length = 6 ∧
    mapGet (generateDictionary zeroGenerator fourNails).pathsDictionary (getPairKey 2 0)
      = [⟨4, 2⟩, ⟨3, 2⟩, ⟨2, 2⟩, ⟨1, 2⟩, ⟨0, 2⟩] :=
  ⟨by decide,
   (dictionary_complete_symmetric zeroGenerator fourNails 2 0 (by decide) (by decide)
      (by decide)).1,
   ((dictionary_complete_symmetric zeroGenerator fourNails 2 0 (by decide) (by decide)
      (by decide)).2.2.2 ⟨4, 2⟩ ⟨0, 2⟩ rfl rfl).trans (by decide)⟩

/-! ## The pipeline: errors, statistics and independence of the prior state -/

theorem mergeArgs_state (tg : ThreadGenerator) (args : Args) :
    (mergeArgs tg args).1.pathsDictionary = tg.pathsDictionary ∧
    (mergeArgs tg args).1.pathsList = tg.pathsList ∧
    (mergeArgs tg args).1.nailsList = tg.nailsList := by
  refine ⟨?_, ?_, ?_⟩
  · simp only [mergeArgs, getDefaults, apply_ite Prod.fst,
      apply_ite ThreadGenerator.pathsDictionary]
    simp
  · simp only [mergeArgs, getDefaults, apply_ite Prod.fst, apply_ite ThreadGenerator.pathsList]
    simp
  · simp only [mergeArgs, getDefaults, apply_ite Prod.fst, apply_ite ThreadGenerator.nailsList]
    simp

theorem mergeArgs_pair (tg : ThreadGenerator) (args : Args) :
    mergeArgs tg args
      = ((mergeArgs tg args).1,
          if args.ImageName ≠ "" then none else some "Image name is required") := by
  rw [← mergeArgs_error]

theorem Generate_of_empty_name (env : Env) (tg : ThreadGenerator) (args : Args)
    (h : args.ImageName = "") :
    Generate env tg args
      = some ((mergeArgs tg args).1, Except.error "Image name is required") := by
  unfold Generate
  rw [mergeArgs_pair]
  simp [h]

/-- After a successful `getSourceImage`, `Generate` is `generateFromImage`. -/
theorem Generate_of_image (env : Env) (tg : ThreadGenerator) (args : Args) (sourceImage : Gray)
    (hname : args.ImageName ≠ "")
    (himg : env.getSourceImage (mergeArgs tg args).1 = Except.ok sourceImage) :
    Generate env tg args = generateFromImage env (mergeArgs tg args).1 sourceImage := by
  unfold Generate generateFromImage
  rw [mergeArgs_pair]
  simp only [hname, ne_eq, not_false_eq_true, if_true, himg]

/-- C11. Scenario B: `mergeArgs` returns an error exactly when the image name is empty;
then `Generate` returns that error and no stats, before the image is read, and the
dictionary, the path list and the nail list of the generator are what they were
before the call.  With a non-empty name every error of `Generate` is the error of
reading the image. -/
theorem missing_image_source (env : Env) (tg : ThreadGenerator) (args : Args) :
    ((mergeArgs tg args).2 ≠ none ↔ args.ImageName = "") ∧
    (args.ImageName = "" →
      Generate env tg args
        = some ((mergeArgs tg args).1, Except.error "Image name is required")) ∧
    (mergeArgs tg args).1.pathsDictionary = tg.pathsDictionary ∧
    (mergeArgs tg args).1.pathsList = tg.pathsList ∧
    (mergeArgs tg args).1.nailsList = tg.nailsList ∧
    (args.ImageName ≠ "" → ∀ (tg' : ThreadGenerator) (err : String),
      Generate env tg args = some (tg', Except.error err) →
      env.getSourceImage (mergeArgs tg args).1 = Except.error err) := by
  refine ⟨?_, Generate_of_empty_name env tg args, (mergeArgs_state tg args).1,
    (mergeArgs_state tg args).2.1, (mergeArgs_state tg args).2.2, ?_⟩
  · rw [mergeArgs_error]
    by_cases h : args.ImageName = "" <;> simp [h]
  · intro hname tg' err hgen
    cases himg : env.getSourceImage (mergeArgs tg args).1 with
    | error e =>
      unfold Generate at hgen
      rw [mergeArgs_pair] at hgen
      simp only [hname, ne_eq, not_false_eq_true, if_true, himg, Option.some.injEq,
        Prod.mk.injEq, Except.error.injEq] at hgen
      rw [hgen.2]
    | ok img =>
      rw [Generate_of_image env tg args img hname himg] at hgen
      unfold generateFromImage at hgen
      split at hgen
      · exact absurd hgen (by simp)
      · split at hgen
        · exact absurd hgen (by simp)
        · simp at hgen

/-- C15. Result statistics: whenever `Generate` succeeds, `TotalLines` is the length of
the list returned by `GetPathsList` and `ThreadLength` is 0. -/
theorem result_statistics (env : Env) (tg tg' : ThreadGenerator) (args : Args)
    (stats : OutputStats) (h : Generate env tg args = some (tg', Except.ok stats)) :
    stats.TotalLines = ((GetPathsList tg').length : Int) ∧ stats.ThreadLength = 0 := by
  by_cases hname : args.ImageName = ""
  · rw [Generate_of_empty_name env tg args hname] at h
    simp at h
  · cases himg : env.getSourceImage (mergeArgs tg args).1 with
    | error e =>
      unfold Generate at h
      rw [mergeArgs_pair] at h
      simp [hname, himg] at h
    | ok img =>
      rw [Generate_of_image env tg args img hname himg] at h
      unfold generateFromImage at h
      split at h
      · exact absurd h (by simp)
      · split at h
        · exact absurd h (by simp)
        · simp only [Option.some.injEq, Prod.mk.injEq, Except.ok.injEq] at h
          obtain ⟨rfl, rfl⟩ := h
          exact ⟨rfl, rfl⟩

/-- Witness for `result_statistics`: four nails on a white 4×4 image. -/
theorem result_statistics_witness :
    (∃ tg', Generate whiteEnv zeroGenerator fourNailArgs
      = some (tg', Except.ok { TotalLines := 2, ThreadLength := 0 })) ∧
    ((2 : Int) = (([⟨0, 2⟩, ⟨2, 0⟩] : List Path).length : Int) ∧ (0 : Int) = 0) :=
  ⟨⟨_, rfl⟩,
   result_statistics whiteEnv zeroGenerator
     { generateDictionary { fourNailConfig with nailsList := fourNails } fourNails with
         pathsList := [⟨0, 2⟩, ⟨2, 0⟩] }
     fourNailArgs { TotalLines := 2, ThreadLength := 0 } (by rfl)⟩

theorem scanCandidates_pathsList (tg : ThreadGenerator) (pl : List Path) (canvas : Gray)
    (nailsLen : Nat) (used : List String) (cur : Int) :
    ∀ (l : List Nat) (b : Best),
      scanCandidates { tg with pathsList := pl } canvas nailsLen used cur l b
        = scanCandidates tg canvas nailsLen used cur l b := by
  intro l
  induction l with
  | nil => intro b; rfl
  | cons j rest ih =>
    intro b
    simp only [scanCandidates]
    have hstep : candidateStep { tg with pathsList := pl } canvas nailsLen used cur b j
        = candidateStep tg canvas nailsLen used cur b j := rfl
    rw [hstep]
    cases candidateStep tg canvas nailsLen used cur b j with
    | none => rfl
    | some b' => exact ih b'

theorem plannerIteration_pathsList (tg : ThreadGenerator) (pl : List Path) (nailsLen : Nat)
    (s : PlannerState) :
    plannerIteration { tg with pathsList := pl } nailsLen s = plannerIteration tg nailsLen s := by
  unfold plannerIteration
  rw [scanCandidates_pathsList]
  rfl

theorem plannerLoop_pathsList (tg : ThreadGenerator) (pl : List Path) (nailsLen : Nat) :
    ∀ (n : Nat) (s : PlannerState),
      plannerLoop { tg with pathsList := pl } nailsLen n s = plannerLoop tg nailsLen n s := by
  intro n
  induction n with
  | zero => intro s; rfl
  | succ n ih =>
    intro s
    simp only [plannerLoop, plannerIteration_pathsList]
    cases plannerIteration tg nailsLen s with
    | panicked => rfl
    | halted => rfl
    | advanced s' => exact ih s'

/-- The method `computePathsListFromImage` overwrites the dictionary and the path list
without reading them. -/
theorem computePathsListFromImage_overwrites (t : ThreadGenerator) (d : Dict) (pl : List Path)
    (sourceImage : Gray) (nailsList : List Nail) :
    computePathsListFromImage { t with pathsDictionary := d, pathsList := pl } sourceImage
      nailsList = computePathsListFromImage t sourceImage nailsList := by
  unfold computePathsListFromImage
  simp only
  have hd : generateDictionary { t with pathsDictionary := d, pathsList := pl } nailsList
      = { generateDictionary t nailsList with pathsList := pl } := rfl
  rw [hd, plannerLoop_pathsList]

/-- The part of `Generate` after the image is read overwrites the dictionary, the path
list and the nail list without reading them. -/
theorem generateFromImage_overwrites (env : Env) (t : ThreadGenerator) (d : Dict)
    (pl : List Path) (nl : List Nail) (sourceImage : Gray) :
    generateFromImage env { t with pathsDictionary := d, pathsList := pl, nailsList := nl }
      sourceImage = generateFromImage env t sourceImage := by
  unfold generateFromImage getNailsListFromImage
  by_cases hq : t.nailsQuantity < 0
  · simp [hq]
  · simp only [hq, if_false]
    generalize (List.range t.nailsQuantity.toNat).map _ = L
    have h : computePathsListFromImage
        { t with pathsDictionary := d, pathsList := pl, nailsList := L } sourceImage L
        = computePathsListFromImage { t with nailsList := L } sourceImage L :=
      computePathsListFromImage_overwrites { t with nailsList := L } d pl sourceImage L
    rw [h]


theorem ThreadGenerator_eq_of_fields (a b : ThreadGenerator)
    (h1 : a.nailsQuantity = b.nailsQuantity) (h2 : a.imgSize = b.imgSize)
    (h3 : a.maxPaths = b.maxPaths) (h4 : a.startingNail = b.startingNail)
    (h5 : a.minimumDifference = b.minimumDifference)
    (h6 : a.brightnessFactor = b.brightnessFactor) (h7 : a.imageName = b.imageName)
    (h8 : a.imageContrast = b.imageContrast) (h9 : a.pathsDictionary = b.pathsDictionary)
    (h10 : a.pathsList = b.pathsList) (h11 : a.nailsList = b.nailsList) : a = b := by
  cases a
  cases b
  simp only [ThreadGenerator.mk.injEq]
  exact ⟨h1, h2, h3, h4, h5, h6, h7, h8, h9, h10, h11⟩

/-- With a non-empty image name, the configuration after `mergeArgs` depends on the prior
state only through the dictionary, the path list and the nail list. -/
theorem mergeArgs_prior (tg1 tg2 : ThreadGenerator) (args : Args) (hname : args.ImageName ≠ "") :
    (mergeArgs tg1 args).1
      = { (mergeArgs tg2 args).1 with
          pathsDictionary := tg1.pathsDictionary
          pathsList := tg1.pathsList
          nailsList := tg1.nailsList } := by
  apply ThreadGenerator_eq_of_fields
  · rw [mergeArgs_nailsQuantity]; exact (mergeArgs_nailsQuantity tg2 args).symm
  · rw [mergeArgs_imgSize]; exact (mergeArgs_imgSize tg2 args).symm
  · rw [mergeArgs_maxPaths]; exact (mergeArgs_maxPaths tg2 args).symm
  · rw [mergeArgs_startingNail]; exact (mergeArgs_startingNail tg2 args).symm
  · rw [mergeArgs_minimumDifference]; exact (mergeArgs_minimumDifference tg2 args).symm
  · rw [mergeArgs_brightnessFactor]; exact (mergeArgs_brightnessFactor tg2 args).symm
  · rw [mergeArgs_imageName tg1 args hname]; exact (mergeArgs_imageName tg2 args hname).symm
  · rw [mergeArgs_imageContrast]; exact (mergeArgs_imageContrast tg2 args).symm
  · exact (mergeArgs_state tg1 args).1
  · exact (mergeArgs_state tg1 args).2.1
  · exact (mergeArgs_state tg1 args).2.2

/-- C16. Run-to-run determinism on a shared generator: for any two prior states of the
generator, `Generate` with the same arguments (image name given) and the same
preprocessed image has the same outcome: the same generator state afterwards, with all
configuration fields, the nail list, the dictionary and the ordered path list, and the
same stats. -/
theorem generate_deterministic (env : Env) (tg1 tg2 : ThreadGenerator) (args : Args)
    (sourceImage : Gray) (hname : args.ImageName ≠ "")
    (h1 : env.getSourceImage (mergeArgs tg1 args).1 = Except.ok sourceImage)
    (h2 : env.getSourceImage (mergeArgs tg2 args).1 = Except.ok sourceImage) :
    Generate env tg1 args = Generate env tg2 args := by
  rw [Generate_of_image env tg1 args sourceImage hname h1,
    Generate_of_image env tg2 args sourceImage hname h2, mergeArgs_prior tg1 tg2 args hname,
    generateFromImage_overwrites]

/-- Witness for `generate_deterministic`: a fresh generator and one left by an earlier
run, four nails on a white 4×4 image. -/
theorem generate_deterministic_witness :
    fourNailArgs.ImageName ≠ "" ∧
    Generate whiteEnv zeroGenerator fourNailArgs = Generate whiteEnv usedGenerator fourNailArgs :=
  ⟨by decide,
   generate_deterministic whiteEnv zeroGenerator usedGenerator fourNailArgs (uniformImage 255)
     (by decide) rfl rfl⟩

/-! ## Candidate weights -/

theorem subtractPixels_eq (canvas : Gray) (line : List Point) :
    ∀ w : Int, subtractPixels canvas line w
      = w - (line.map (fun (p : Point) => ((canvas.GrayAt p.X p.Y).val : Int))).sum := by
  induction line with
  | nil => intro w; simp [subtractPixels]
  | cons p rest ih =>
    intro w
    have hstep : subtractPixels canvas (p :: rest) w
        = subtractPixels canvas rest (w - ((canvas.GrayAt p.X p.Y).val : Int)) := rfl
    rw [hstep, ih, List.map_cons, List.sum_cons]
    ring

theorem deficit_sum (canvas : Gray) (line : List Point) :
    (line.map (fun (p : Point) => 255 - ((canvas.GrayAt p.X p.Y).val : Int))).sum
      = (line.length : Int) * 255
        - (line.map (fun (p : Point) => ((canvas.GrayAt p.X p.Y).val : Int))).sum ∧
    0 ≤ (line.map (fun (p : Point) => 255 - ((canvas.GrayAt p.X p.Y).val : Int))).sum ∧
    (line.map (fun (p : Point) => 255 - ((canvas.GrayAt p.X p.Y).val : Int))).sum
      ≤ 255 * (line.length : Int) := by
  induction line with
  | nil => simp
  | cons p rest ih =>
    obtain ⟨h1, h2, h3⟩ := ih
    have hp := (canvas.GrayAt p.X p.Y).isLt
    simp only [List.map_cons, List.sum_cons, List.length_cons, Nat.cast_add, Nat.cast_one]
    refine ⟨by rw [h1]; ring, by omega, by omega⟩

/-- The weight computed by the planner is the weight of the specification. -/
theorem planner_weight_eq (canvas : Gray) (line : List Point) :
    Int.tdiv (subtractPixels canvas line ((line.length : Int) * 255)) (line.length : Int)
      = lineWeight canvas line := by
  unfold lineWeight
  rw [subtractPixels_eq, (deficit_sum canvas line).1]

theorem lineWeight_bounds (canvas : Gray) (line : List Point) :
    0 ≤ lineWeight canvas line ∧ lineWeight canvas line ≤ 255 := by
  obtain ⟨-, h2, h3⟩ := deficit_sum canvas line
  unfold lineWeight
  rw [Int.tdiv_eq_ediv h2 (Int.ofNat_nonneg _)]
  refine ⟨Int.ediv_nonneg h2 (Int.ofNat_nonneg _), ?_⟩
  cases line with
  | nil => simp
  | cons p rest =>
    exact Int.ediv_le_of_le_mul (by simp only [List.length_cons]; omega) h3

/-- What the body of the candidate loop does, case by case. -/
theorem candidateStep_eval (tg : ThreadGenerator) (canvas : Gray) (nailsLen : Nat)
    (used : List String) (cur : Int) (b : Best) (j : Nat) :
    candidateStep tg canvas nailsLen used cur b j
      = if skipCandidate tg nailsLen used cur j = true then some b
        else if mapGet tg.pathsDictionary (getPairKey cur j) = [] then none
        else if lineWeight canvas (mapGet tg.pathsDictionary (getPairKey cur j)) > b.maxWeight
          then some { maxWeight := lineWeight canvas (mapGet tg.pathsDictionary (getPairKey cur j))
                      maxLine := mapGet tg.pathsDictionary (getPairKey cur j)
                      maxnailIndex := j }
        else some b := by
  unfold candidateStep
  by_cases hs : skipCandidate tg nailsLen used cur j = true
  · simp [hs]
  · simp only [hs, Bool.false_eq_true, if_false, planner_weight_eq, List.length_eq_zero]


/-- C19. Weight formula: for a candidate that passes the filters and has a non-empty
dictionary line, the weight computed by the planner is the sum over the pixels of the
line of `255 - canvas[pixel]` (a pixel outside the canvas read as 0) divided by the
line length with truncating division; it lies between 0 and 255, and it is the weight
the candidate loop compares with `maxWeight`. -/
theorem weight_formula (tg : ThreadGenerator) (canvas : Gray) (nailsLen : Nat)
    (used : List String) (cur : Int) (b : Best) (j : Nat)
    (hskip : skipCandidate tg nailsLen used cur j = false)
    (hline : mapGet tg.pathsDictionary (getPairKey cur j) ≠ []) :
    Int.tdiv
        (subtractPixels canvas (mapGet tg.pathsDictionary (getPairKey cur j))
          (((mapGet tg.pathsDictionary (getPairKey cur j)).length : Int) * 255))
        ((mapGet tg.pathsDictionary (getPairKey cur j)).length : Int)
      = lineWeight canvas (mapGet tg.pathsDictionary (getPairKey cur j)) ∧
    0 ≤ lineWeight canvas (mapGet tg.pathsDictionary (getPairKey cur j)) ∧
    lineWeight canvas (mapGet tg.pathsDictionary (getPairKey cur j)) ≤ 255 ∧
    candidateStep tg canvas nailsLen used cur b j
      = some (if lineWeight canvas (mapGet tg.pathsDictionary (getPairKey cur j)) > b.maxWeight
          then { maxWeight := lineWeight canvas (mapGet tg.pathsDictionary (getPairKey cur j))
                 maxLine := mapGet tg.pathsDictionary (getPairKey cur j)
                 maxnailIndex := j }
          else b) := by
  refine ⟨planner_weight_eq _ _, (lineWeight_bounds _ _).1, (lineWeight_bounds _ _).2, ?_⟩
  rw [candidateStep_eval]
  simp only [hskip, Bool.false_eq_true, if_false, hline]
  split_ifs <;> rfl

/-- Witness for `weight_formula`: the line from nail 0 to nail 2 on a 4×4 canvas of
intensity 1; four of its five pixels are on the canvas, so the weight is
`(255 + 4 * 254) / 5 = 254`. -/
theorem weight_formula_witness :
    (skipCandidate (generateDictionary fourNailConfig fourNails) 4 [] 0 2 = false ∧
      mapGet (generateDictionary fourNailConfig fourNails).pathsDictionary (getPairKey 0 2)
        ≠ []) ∧
    lineWeight (uniformImage 1)
      (mapGet (generateDictionary fourNailConfig fourNails).pathsDictionary (getPairKey 0 2))
      = 254 ∧
    candidateStep (generateDictionary fourNailConfig fourNails) (uniformImage 1) 4 [] 0
        { maxWeight := 0, maxLine := [], maxnailIndex := 0 } 2
      = some { maxWeight := 254
               maxLine := [⟨4, 2⟩, ⟨3, 2⟩, ⟨2, 2⟩, ⟨1, 2⟩, ⟨0, 2⟩]
               maxnailIndex := 2 } :=
  ⟨by decide, by decide,
   ((weight_formula (generateDictionary fourNailConfig fourNails) (uniformImage 1) 4 [] 0
      { maxWeight := 0, maxLine := [], maxnailIndex := 0 } 2 (by decide) (by decide)).2.2.2).trans
      (by rfl)⟩

/-! ## The distance filter -/

/-- C17. Candidate filter and circular distance: for a candidate `j` other than the
current nail, with `N - minimumDifference` inside the 64-bit range (as for every
`minimumDifference` that `mergeArgs` produces), the planner skips `j` exactly when the
circular index distance `min(|j - current|, N - |j - current|)` is below
`minimumDifference` or the pair is already used. -/
theorem filter_is_circular_distance (tg : ThreadGenerator) (nailsLen : Nat)
    (used : List String) (cur : Int) (j : Nat) (hne : cur ≠ (j : Int))
    (hlo : -2 ^ 63 ≤ (nailsLen : Int) - tg.minimumDifference)
    (hhi : (nailsLen : Int) - tg.minimumDifference < 2 ^ 63) :
    skipCandidate tg nailsLen used cur j
      = (decide (circularDistance nailsLen cur j < tg.minimumDifference) ||
          decide (getPairKey j cur ∈ used)) := by
  have hd : ((Int.natAbs ((j : Int) - cur) : Nat) : Int) = max ((j : Int) - cur) (cur - j) := by
    omega
  unfold skipCandidate circularDistance abs
  simp only [hne, if_false, wrap64_eq hlo hhi]
  rw [hd]
  by_cases h : max ((j : Int) - cur) (cur - j) < tg.minimumDifference ∨
      max ((j : Int) - cur) (cur - j) > (nailsLen : Int) - tg.minimumDifference
  · have h' : min (max ((j : Int) - cur) (cur - j))
        ((nailsLen : Int) - max ((j : Int) - cur) (cur - j)) < tg.minimumDifference := by omega
    rw [if_pos h, decide_eq_true h', Bool.true_or]
  · have h' : ¬ min (max ((j : Int) - cur) (cur - j))
        ((nailsLen : Int) - max ((j : Int) - cur) (cur - j)) < tg.minimumDifference := by omega
    rw [if_neg h, decide_eq_false h', Bool.false_or]

/-- Witness for `filter_is_circular_distance`: four nails, `minimumDifference = 2`, from
nail 0 the candidate 3 has raw difference 3 and circular distance 1 and is skipped. -/
theorem filter_is_circular_distance_witness :
    ((0 : Int) ≠ ((3 : Nat) : Int) ∧
      -2 ^ 63 ≤ ((4 : Nat) : Int) - fourNailConfig.minimumDifference ∧
      ((4 : Nat) : Int) - fourNailConfig.minimumDifference < 2 ^ 63) ∧
    circularDistance 4 0 3 = 1 ∧
    skipCandidate fourNailConfig 4 [] 0 3 = true :=
  ⟨by decide, by decide,
   (filter_is_circular_distance fourNailConfig 4 [] 0 3 (by decide) (by decide)
      (by decide)).trans (by decide)⟩

/-! ## The candidate scan -/

/-- What the candidate loop returns when it does not panic: every candidate that passes
the filters has a non-empty line, and either no such candidate beats the initial
`maxWeight` and the locals are unchanged, or the locals describe the first candidate
of greatest weight. -/
theorem scanCandidates_spec (tg : ThreadGenerator) (canvas : Gray) (nailsLen : Nat)
    (used : List String) (cur : Int) :
    ∀ (l : List Nat) (b b' : Best),
      scanCandidates tg canvas nailsLen used cur l b = some b' →
      (∀ j ∈ l, skipCandidate tg nailsLen used cur j = false →
        mapGet tg.pathsDictionary (getPairKey cur j) ≠ []) ∧
      ((b' = b ∧ ∀ j ∈ l, skipCandidate tg nailsLen used cur j = false →
          lineWeight canvas (mapGet tg.pathsDictionary (getPairKey cur j)) ≤ b.maxWeight) ∨
       (∃ (l1 : List Nat) (m : Nat) (l2 : List Nat), l = l1 ++ m :: l2 ∧
          skipCandidate tg nailsLen used cur m = false ∧
          b' = { maxWeight := lineWeight canvas (mapGet tg.pathsDictionary (getPairKey cur m))
                 maxLine := mapGet tg.pathsDictionary (getPairKey cur m)
                 maxnailIndex := m } ∧
          b.maxWeight < lineWeight canvas (mapGet tg.pathsDictionary (getPairKey cur m)) ∧
          (∀ j ∈ l1, skipCandidate tg nailsLen used cur j = false →
            lineWeight canvas (mapGet tg.pathsDictionary (getPairKey cur j))
              < lineWeight canvas (mapGet tg.pathsDictionary (getPairKey cur m))) ∧
          (∀ j ∈ l2, skipCandidate tg nailsLen used cur j = false →
            lineWeight canvas (mapGet tg.pathsDictionary (getPairKey cur j))
              ≤ lineWeight canvas (mapGet tg.pathsDictionary (getPairKey cur m))))) := by
  intro l
  induction l with
  | nil =>
    intro b b' h
    simp only [scanCandidates, Option.some.injEq] at h
    exact ⟨by simp, Or.inl ⟨h.symm, by simp⟩⟩
  | cons a rest ih =>
    intro b b' h
    simp only [scanCandidates] at h
    rw [candidateStep_eval] at h
    by_cases hs : skipCandidate tg nailsLen used cur a = true
    · simp only [hs, if_true] at h
      obtain ⟨hne, hres⟩ := ih b b' h
      refine ⟨?_, ?_⟩
      · intro j hj hsj
        rcases List.mem_cons.mp hj with rfl | hj
        · rw [hs] at hsj; exact absurd hsj (by simp)
        · exact hne j hj hsj
      · rcases hres with ⟨hb, hle⟩ | ⟨l1, m, l2, hl, hm, hb, hlt, h1, h2⟩
        · refine Or.inl ⟨hb, ?_⟩
          intro j hj hsj
          rcases List.mem_cons.mp hj with rfl | hj
          · rw [hs] at hsj; exact absurd hsj (by simp)
          · exact hle j hj hsj
        · refine Or.inr ⟨a :: l1, m, l2, by rw [hl]; rfl, hm, hb, hlt, ?_, h2⟩
          intro j hj hsj
          rcases List.mem_cons.mp hj with rfl | hj
          · rw [hs] at hsj; exact absurd hsj (by simp)
          · exact h1 j hj hsj
    · have hsf : skipCandidate tg nailsLen used cur a = false := by
        simpa using hs
      simp only [hs, if_false] at h
      by_cases hline : mapGet tg.pathsDictionary (getPairKey cur a) = []
      · simp [hline] at h
      · simp only [hline, if_false] at h
        by_cases hw : lineWeight canvas (mapGet tg.pathsDictionary (getPairKey cur a)) > b.maxWeight
        · simp only [hw, if_true] at h
          obtain ⟨hne, hres⟩ := ih _ b' h
          refine ⟨?_, ?_⟩
          · intro j hj hsj
            rcases List.mem_cons.mp hj with rfl | hj
            · exact hline
            · exact hne j hj hsj
          · rcases hres with ⟨hb, hle⟩ | ⟨l1, m, l2, hl, hm, hb, hlt, h1, h2⟩
            · exact Or.inr ⟨[], a, rest, rfl, hsf, hb, hw, by simp, hle⟩
            · refine Or.inr ⟨a :: l1, m, l2, by rw [hl]; rfl, hm, hb, ?_, ?_, h2⟩
              · exact lt_trans hw hlt
              · intro j hj hsj
                rcases List.mem_cons.mp hj with rfl | hj
                · exact hlt
                · exact h1 j hj hsj
        · simp only [hw, if_false] at h
          obtain ⟨hne, hres⟩ := ih b b' h
          refine ⟨?_, ?_⟩
          · intro j hj hsj
            rcases List.mem_cons.mp hj with rfl | hj
            · exact hline
            · exact hne j hj hsj
          · rcases hres with ⟨hb, hle⟩ | ⟨l1, m, l2, hl, hm, hb, hlt, h1, h2⟩
            · refine Or.inl ⟨hb, ?_⟩
              intro j hj hsj
              rcases List.mem_cons.mp hj with rfl | hj
              · exact not_lt.mp hw
              · exact hle j hj hsj
            · refine Or.inr ⟨a :: l1, m, l2, by rw [hl]; rfl, hm, hb, hlt, ?_, h2⟩
              intro j hj hsj
              rcases List.mem_cons.mp hj with rfl | hj
              · exact lt_of_le_of_lt (not_lt.mp hw) hlt
              · exact h1 j hj hsj

/-- In a split of `List.range n`, the part before `m` holds the numbers below `m`. -/
theorem range_split {n m : Nat} {l1 l2 : List Nat} (h : List.range n = l1 ++ m :: l2) :
    m < n ∧ (∀ j, j < m → j ∈ l1) ∧ (∀ j ∈ l1, j < n) ∧ (∀ j ∈ l2, j < n) := by
  have hm : m ∈ List.range n := by rw [h]; simp
  have hpw : List.Pairwise (· < ·) (l1 ++ m :: l2) := h ▸ List.pairwise_lt_range n
  have hafter : ∀ j ∈ l2, m < j := (List.pairwise_cons.mp (List.pairwise_append.mp hpw).2.1).1
  have hsub1 : ∀ j ∈ l1, j < n := fun j hj =>
    List.mem_range.mp (by rw [h]; exact List.mem_append_left _ hj)
  have hsub2 : ∀ j ∈ l2, j < n := fun j hj =>
    List.mem_range.mp (by rw [h]; exact List.mem_append_right _ (List.mem_cons_of_mem _ hj))
  refine ⟨List.mem_range.mp hm, ?_, hsub1, hsub2⟩
  intro j hj
  have hjn : j ∈ List.range n := List.mem_range.mpr (lt_trans hj (List.mem_range.mp hm))
  rw [h] at hjn
  rcases List.mem_append.mp hjn with h1 | h2
  · exact h1
  · rcases List.mem_cons.mp h2 with rfl | h3
    · exact absurd hj (lt_irrefl _)
    · exact absurd (hafter j h3) (by omega)


theorem ne_of_not_skipped {tg : ThreadGenerator} {nailsLen : Nat} {used : List String}
    {cur : Int} {j : Nat} (h : skipCandidate tg nailsLen used cur j = false) :
    cur ≠ (j : Int) := by
  intro heq
  unfold skipCandidate at h
  simp [heq] at h

/-- The candidate loop of a planner iteration over all nails, from the initial locals. -/
theorem scan_range_spec {tg : ThreadGenerator} {canvas : Gray} {nailsLen : Nat}
    {used : List String} {cur : Int} {best : Best}
    (hscan : scanCandidates tg canvas nailsLen used cur (List.range nailsLen)
      { maxWeight := 0, maxLine := [], maxnailIndex := 0 } = some best) :
    (best = { maxWeight := 0, maxLine := [], maxnailIndex := 0 } ∧
      ∀ j, j < nailsLen → skipCandidate tg nailsLen used cur j = false →
        lineWeight canvas (mapGet tg.pathsDictionary (getPairKey cur j)) ≤ 0) ∨
    (∃ m : Nat, m < nailsLen ∧ skipCandidate tg nailsLen used cur m = false ∧
      best = { maxWeight := lineWeight canvas (mapGet tg.pathsDictionary (getPairKey cur m))
               maxLine := mapGet tg.pathsDictionary (getPairKey cur m)
               maxnailIndex := m } ∧
      0 < lineWeight canvas (mapGet tg.pathsDictionary (getPairKey cur m)) ∧
      (∀ j, j < nailsLen → skipCandidate tg nailsLen used cur j = false →
        lineWeight canvas (mapGet tg.pathsDictionary (getPairKey cur j))
          ≤ lineWeight canvas (mapGet tg.pathsDictionary (getPairKey cur m))) ∧
      (∀ j, j < m → skipCandidate tg nailsLen used cur j = false →
        lineWeight canvas (mapGet tg.pathsDictionary (getPairKey cur j))
          < lineWeight canvas (mapGet tg.pathsDictionary (getPairKey cur m)))) := by
  obtain ⟨-, hres⟩ := scanCandidates_spec tg canvas nailsLen used cur _ _ _ hscan
  rcases hres with ⟨hb, hle⟩ | ⟨l1, m, l2, hl, hm, hb, hlt, h1, h2⟩
  · exact Or.inl ⟨hb, fun j hj hs => hle j (List.mem_range.mpr hj) hs⟩
  · obtain ⟨hmn, hbelow, -, -⟩ := range_split hl
    refine Or.inr ⟨m, hmn, hm, hb, hlt, ?_, fun j hj hs => h1 j (hbelow j hj) hs⟩
    intro j hj hs
    have hjmem : j ∈ l1 ++ m :: l2 := hl ▸ List.mem_range.mpr hj
    rcases List.mem_append.mp hjmem with hj1 | hj2
    · exact le_of_lt (h1 j hj1 hs)
    · rcases List.mem_cons.mp hj2 with rfl | hj3
      · exact le_refl _
      · exact h2 j hj3 hs

/-- C18. Selection rule: in a planner iteration whose candidate loop does not panic and
in which some candidate passing the filters has weight at least 1, the selected nail
passes the filters, its weight is the greatest among the candidates passing the
filters, every such candidate of smaller index has a strictly smaller weight, and the
iteration appends the path to that nail and brightens its dictionary line. -/
theorem selection_rule (tg : ThreadGenerator) (nailsLen : Nat) (s : PlannerState) (best : Best)
    (hscan : scanCandidates tg s.canvas nailsLen s.usedPaths s.nailIndex (List.range nailsLen)
      { maxWeight := 0, maxLine := [], maxnailIndex := 0 } = some best)
    (hsel : ∃ j : Nat, j < nailsLen ∧
      skipCandidate tg nailsLen s.usedPaths s.nailIndex j = false ∧
      1 ≤ lineWeight s.canvas (mapGet tg.pathsDictionary (getPairKey s.nailIndex j))) :
    ∃ m : Nat, m < nailsLen ∧ best.maxnailIndex = (m : Int) ∧
      skipCandidate tg nailsLen s.usedPaths s.nailIndex m = false ∧
      best.maxWeight = lineWeight s.canvas (mapGet tg.pathsDictionary (getPairKey s.nailIndex m)) ∧
      (∀ j, j < nailsLen → skipCandidate tg nailsLen s.usedPaths s.nailIndex j = false →
        lineWeight s.canvas (mapGet tg.pathsDictionary (getPairKey s.nailIndex j))
          ≤ lineWeight s.canvas (mapGet tg.pathsDictionary (getPairKey s.nailIndex m))) ∧
      (∀ j, j < m → skipCandidate tg nailsLen s.usedPaths s.nailIndex j = false →
        lineWeight s.canvas (mapGet tg.pathsDictionary (getPairKey s.nailIndex j))
          < lineWeight s.canvas (mapGet tg.pathsDictionary (getPairKey s.nailIndex m))) ∧
      plannerIteration tg nailsLen s
        = Outcome.advanced
            { nailIndex := (m : Int)
              pathsList := s.pathsList ++ [⟨s.nailIndex, (m : Int)⟩]
              usedPaths := getPairKey s.nailIndex (m : Int) :: s.usedPaths
              canvas := brighten tg s.canvas
                (mapGet tg.pathsDictionary (getPairKey s.nailIndex m)) } := by
  rcases scan_range_spec hscan with ⟨-, hle⟩ | ⟨m, hmn, hm, hb, hpos, hmax, hfirst⟩
  · obtain ⟨j, hj, hs, hw⟩ := hsel
    have := hle j hj hs
    omega
  · refine ⟨m, hmn, by rw [hb], hm, by rw [hb], hmax, hfirst, ?_⟩
    unfold plannerIteration
    rw [hscan, hb]
    simp only [ne_of_not_skipped hm, if_false]

/-- Witness for `selection_rule`: four nails on a black 4×4 canvas with
`minimumDifference = 1`; from nail 0 the candidates 1, 2 and 3 all have weight 255 and
the first of them, nail 1, is selected. -/
theorem selection_rule_witness :
    scanCandidates adjacentConfig (uniformImage 0) 4 [] 0 (List.range 4)
        { maxWeight := 0, maxLine := [], maxnailIndex := 0 }
      = some { maxWeight := 255, maxLine := [⟨4, 2⟩, ⟨3, 3⟩, ⟨2, 4⟩], maxnailIndex := 1 } ∧
    lineWeight (uniformImage 0) (mapGet adjacentConfig.pathsDictionary (getPairKey 0 2)) = 255 ∧
    ∃ m : Nat, m < 4 ∧ (1 : Int) = (m : Int) ∧ skipCandidate adjacentConfig 4 [] 0 m = false :=
  ⟨by rfl, by decide,
   (selection_rule adjacentConfig 4
      { nailIndex := 0, pathsList := [], usedPaths := [], canvas := uniformImage 0 }
      { maxWeight := 255, maxLine := [⟨4, 2⟩, ⟨3, 3⟩, ⟨2, 4⟩], maxnailIndex := 1 }
      (by rfl) ⟨1, by decide, by decide, by decide⟩).imp
    (fun _ h => ⟨h.1, h.2.1, h.2.2.1⟩)⟩

/-! ## Nail indices -/

/-- The nail chosen by a planner iteration is nail 0 or one of the candidates. -/
theorem maxnailIndex_range {tg : ThreadGenerator} {canvas : Gray} {nailsLen : Nat}
    {used : List String} {cur : Int} {best : Best}
    (hscan : scanCandidates tg canvas nailsLen used cur (List.range nailsLen)
      { maxWeight := 0, maxLine := [], maxnailIndex := 0 } = some best)
    (hpos : 0 < nailsLen) :
    0 ≤ best.maxnailIndex ∧ best.maxnailIndex < (nailsLen : Int) := by
  rcases scan_range_spec hscan with ⟨hb, -⟩ | ⟨m, hmn, -, hb, -, -, -⟩
  · rw [hb]
    simp only
    omega
  · rw [hb]
    simp only
    omega

/-- C12, evaluated. `mergeArgs` accepts `StartingNail = 5` for four nails.  In the first
planner iteration every candidate is skipped, `maxnailIndex` keeps its initial value 0,
and because `nailIndex = 5` differs from 0 the loop appends the path (5, 0) instead of
stopping: the returned list holds a path whose starting nail is not below the number of
nails. -/
theorem nail_index_violated :
    (mergeArgs zeroGenerator (startArgs 5)).2 = none ∧
    (∀ next : Nat, next < 4 →
      skipCandidate (generateDictionary (mergeArgs zeroGenerator (startArgs 5)).1 fourNails)
        4 [] 5 next = true) ∧
    (computePathsListFromImage (mergeArgs zeroGenerator (startArgs 5)).1 (uniformImage 255)
      fourNails).map Prod.snd = some [⟨5, 0⟩] ∧
    ¬ ((5 : Int) < (fourNails.length : Int)) := by
  decide

/-- Nail indices when the starting nail is in range: for a configuration produced by
`mergeArgs` whose starting nail is below the number `N` of nails, every path of the list
returned by `computePathsListFromImage` has its starting nail and its ending nail in
`[0, N)`. -/
theorem nail_index_invariant (tg0 tg' : ThreadGenerator) (args : Args) (sourceImage : Gray)
    (nailsList : List Nail) (paths : List Path)
    (hstart : (mergeArgs tg0 args).1.startingNail < (nailsList.length : Int))
    (h : computePathsListFromImage (mergeArgs tg0 args).1 sourceImage nailsList
      = some (tg', paths)) :
    ∀ p ∈ paths, 0 ≤ p.StartingNail ∧ p.StartingNail < (nailsList.length : Int) ∧
      0 ≤ p.EndingNail ∧ p.EndingNail < (nailsList.length : Int) := by
  have h0 : 0 ≤ (mergeArgs tg0 args).1.startingNail := by
    rw [mergeArgs_startingNail]; split_ifs <;> omega
  have hN : 0 < nailsList.length := by omega
  unfold computePathsListFromImage at h
  simp only at h
  split at h
  · exact absurd h (by simp)
  · rename_i s hs
    simp only [Option.some.injEq, Prod.mk.injEq] at h
    obtain ⟨-, rfl⟩ := h
    have hinv := plannerLoop_induction
      (fun s => (0 ≤ s.nailIndex ∧ s.nailIndex < (nailsList.length : Int)) ∧
        ∀ p ∈ s.pathsList, 0 ≤ p.StartingNail ∧ p.StartingNail < (nailsList.length : Int) ∧
          0 ≤ p.EndingNail ∧ p.EndingNail < (nailsList.length : Int))
      ?_ _ _ _ hs ⟨⟨h0, hstart⟩, by simp⟩
    · exact hinv.2
    · rintro s1 s2 ⟨hcur, hpaths⟩ hadv
      obtain ⟨best, hscan, -, rfl⟩ := plannerIteration_advanced hadv
      have hbest := maxnailIndex_range hscan hN
      refine ⟨hbest, ?_⟩
      intro p hp
      rcases List.mem_append.mp hp with hp | hp
      · exact hpaths p hp
      · rw [List.mem_singleton] at hp
        subst hp
        exact ⟨hcur.1, hcur.2, hbest.1, hbest.2⟩

/-- Witness for `nail_index_invariant`: four nails, starting nail 3, white 4×4 canvas; the
returned list is `[(3, 0)]`. -/
theorem nail_index_invariant_witness :
    (mergeArgs zeroGenerator (startArgs 3)).1.startingNail < (fourNails.length : Int) ∧
    ∀ p ∈ ([⟨3, 0⟩] : List Path), 0 ≤ p.StartingNail ∧ p.StartingNail < (fourNails.length : Int) ∧
      0 ≤ p.EndingNail ∧ p.EndingNail < (fourNails.length : Int) :=
  ⟨by decide,
   nail_index_invariant zeroGenerator
     { generateDictionary (mergeArgs zeroGenerator (startArgs 3)).1 fourNails with
         pathsList := [⟨3, 0⟩] }
     (startArgs 3) (uniformImage 255) fourNails [⟨3, 0⟩] (by decide) (by decide)⟩

/-! ## The brightening step -/

theorem mapGet_mem (d : Dict) (k : String) :
    mapGet d k = [] ∨ ∃ kv ∈ d, kv.2 = mapGet d k := by
  induction d with
  | nil => exact Or.inl rfl
  | cons kv rest ih =>
    obtain ⟨k0, v0⟩ := kv
    by_cases h : k0 = k
    · exact Or.inr ⟨(k0, v0), by simp, by simp [mapGet, h]⟩
    · rcases ih with h0 | ⟨kv, hkv, hval⟩
      · exact Or.inl (by simp [mapGet, h, h0])
      · exact Or.inr ⟨kv, List.mem_cons_of_mem _ hkv, by simp [mapGet, h, hval]⟩

theorem mem_mapSet (d : Dict) (k : String) (v : List Nail) (kv : String × List Nail)
    (h : kv ∈ mapSet d k v) : kv ∈ d ∨ kv = (k, v) := by
  induction d with
  | nil => simpa [mapSet] using h
  | cons kv0 rest ih =>
    obtain ⟨k0, v0⟩ := kv0
    by_cases h0 : k0 = k
    · simp only [mapSet, h0, if_true, List.mem_cons] at h
      rcases h with h | h
      · exact Or.inr h
      · exact Or.inl (List.mem_cons_of_mem _ h)
    · simp only [mapSet, h0, if_false, List.mem_cons] at h
      rcases h with h | h
      · exact Or.inl (by simp [h])
      · rcases ih h with h1 | h1
        · exact Or.inl (List.mem_cons_of_mem _ h1)
        · exact Or.inr h1

theorem mem_setAll :
    ∀ (kvs : List (String × List Nail)) (d : Dict) (kv : String × List Nail),
      kv ∈ setAll d kvs → kv ∈ d ∨ kv ∈ kvs := by
  intro kvs
  induction kvs with
  | nil => intro d kv h; exact Or.inl h
  | cons kv0 rest ih =>
    intro d kv h
    have hstep : setAll d (kv0 :: rest) = setAll (mapSet d kv0.1 kv0.2) rest := rfl
    rw [hstep] at h
    rcases ih _ kv h with h1 | h1
    · rcases mem_mapSet d kv0.1 kv0.2 kv h1 with h2 | h2
      · exact Or.inl h2
      · exact Or.inr (by rw [h2]; simp)
    · exact Or.inr (List.mem_cons_of_mem _ h1)

/-- Every line read from the dictionary built by `generateDictionary` is empty (missing
key) or the rasterised line between two nails of the list. -/
theorem buildDictionary_line (nailsList : List Nail) (k : String) :
    mapGet (buildDictionary nailsList) k = [] ∨
    ∃ i j : Nat, i < j ∧ j < nailsList.length ∧
      mapGet (buildDictionary nailsList) k
        = bresenham (nailsList.getD i ⟨0, 0⟩) (nailsList.getD j ⟨0, 0⟩) := by
  rcases mapGet_mem (buildDictionary nailsList) k with h | ⟨kv, hkv, hval⟩
  · exact Or.inl h
  · rw [buildDictionary_eq] at hkv
    rcases mem_setAll _ _ _ hkv with h | h
    · simp at h
    · obtain ⟨⟨i, j⟩, hij, rfl⟩ := List.mem_map.mp h
      obtain ⟨h1, h2⟩ := (mem_nailPairs _ i j).mp hij
      exact Or.inr ⟨i, j, h1, h2, hval.symm⟩

theorem buildDictionary_line_nodup (nailsList : List Nail) (k : String) :
    (mapGet (buildDictionary nailsList) k).Nodup := by
  rcases buildDictionary_line nailsList k with h | ⟨i, j, -, -, h⟩
  · rw [h]; exact List.nodup_nil
  · rw [h]; exact (bresenhamFuel_enough _ _ 0).2.2.2

theorem brighten_value_eq {bf : Int} (h1 : 0 ≤ bf) (h2 : bf ≤ 2 ^ 63 - 256) (p : Fin 256) :
    (((uint8 (min 255 (wrap64 ((p.val : Int) + bf)))).val : Nat) : Int)
      = min 255 ((p.val : Int) + bf) := by
  have hp := p.isLt
  rw [wrap64_eq (by omega) (by omega)]
  unfold uint8
  simp only
  omega

theorem brighten_Rect (tg : ThreadGenerator) (line : List Point) :
    ∀ c : Gray, (brighten tg c line).Rect = c.Rect := by
  induction line with
  | nil => intro c; rfl
  | cons p rest ih =>
    intro c
    unfold brighten
    rw [List.foldl_cons]
    refine (ih _).trans ?_
    unfold Gray.SetGray
    split_ifs <;> rfl

/-- The brightening loop over a line without repeated pixels: a pixel of the canvas on
the line gets `min(255, old + brightnessFactor)`, every other pixel keeps its value. -/
theorem brighten_frame (tg : ThreadGenerator) (h1 : 0 ≤ tg.brightnessFactor)
    (h2 : tg.brightnessFactor ≤ 2 ^ 63 - 256) (line : List Point) (hnd : line.Nodup) :
    ∀ (c : Gray) (x y : Int),
      (((brighten tg c line).GrayAt x y).val : Int)
        = if c.Rect.contains x y = true ∧ (⟨x, y⟩ : Point) ∈ line
          then min 255 (((c.GrayAt x y).val : Int) + tg.brightnessFactor)
          else ((c.GrayAt x y).val : Int) := by
  induction line with
  | nil => intro c x y; simp [brighten]
  | cons p rest ih =>
    intro c x y
    obtain ⟨hp, hrest⟩ := List.nodup_cons.mp hnd
    have hstep : brighten tg c (p :: rest)
        = brighten tg (c.SetGray p.X p.Y
            (uint8 (min 255 (wrap64 (((c.GrayAt p.X p.Y).val : Int) + tg.brightnessFactor)))))
            rest := rfl
    have hrect : (c.SetGray p.X p.Y
        (uint8 (min 255 (wrap64 (((c.GrayAt p.X p.Y).val : Int) + tg.brightnessFactor))))).Rect
        = c.Rect := by
      unfold Gray.SetGray
      split_ifs <;> rfl
    rw [hstep, ih hrest, hrect, GrayAt_SetGray]
    by_cases hxy : x = p.X ∧ y = p.Y
    · obtain ⟨rfl, rfl⟩ := hxy
      have hmem : (⟨p.X, p.Y⟩ : Point) ∉ rest := hp
      by_cases hin : c.Rect.contains p.X p.Y = true
      · simp only [hin, hmem, and_false, if_false, and_self, if_true, List.mem_cons, true_or,
          true_and]
        exact brighten_value_eq h1 h2 _
      · simp [hin]
    · have hne : (⟨x, y⟩ : Point) ≠ p := by
        intro h
        apply hxy
        rw [← h]
        exact ⟨rfl, rfl⟩
      simp only [hxy, and_false, if_false, List.mem_cons, hne, false_or]


/-- C20, counterexample. With `BrightnessFactor = 2^63 - 1` the pixel `(3, 2)` of intensity
1 lies on the selected line from nail 0 to nail 2 and ends with intensity 0, not with
`min(255, 1 + brightnessFactor) = 255`. -/
theorem brightening_overflow :
    ∃ s', plannerIteration
        (generateDictionary
          (mergeArgs zeroGenerator { fourNailArgs with BrightnessFactor := 2 ^ 63 - 1 }).1
          fourNails) 4
        { nailIndex := 0, pathsList := [], usedPaths := [], canvas := uniformImage 1 }
          = Outcome.advanced s' ∧
      (uniformImage 1).Rect.contains 3 2 = true ∧
      (⟨3, 2⟩ : Point) ∈ mapGet
        (generateDictionary
          (mergeArgs zeroGenerator { fourNailArgs with BrightnessFactor := 2 ^ 63 - 1 }).1
          fourNails).pathsDictionary (getPairKey 0 s'.nailIndex) ∧
      ((s'.canvas.GrayAt 3 2).val : Int) = 0 ∧
      min 255 ((((uniformImage 1).GrayAt 3 2).val : Int) + (2 ^ 63 - 1)) = 255 :=
  ⟨_, rfl, by decide, by decide, by decide, by decide⟩

/-- C20, amended. Brightening step and its frame: for a configuration produced by
`mergeArgs` from arguments whose `BrightnessFactor` is at most `2^63 - 256`, with the
dictionary built by `generateDictionary`, in an iteration that selects a candidate
(some candidate passing the filters has weight at least 1), every pixel of the canvas
on the dictionary line of the appended path ends with `min(255, old + brightnessFactor)`
and every other pixel keeps its value. -/
theorem brightening_step (tg0 : ThreadGenerator) (args : Args) (nailsList : List Nail)
    (s s' : PlannerState) (x y : Int)
    (hbf : args.BrightnessFactor ≤ 2 ^ 63 - 256)
    (hsel : ∃ j : Nat, j < nailsList.length ∧
      skipCandidate (generateDictionary (mergeArgs tg0 args).1 nailsList) nailsList.length
        s.usedPaths s.nailIndex j = false ∧
      1 ≤ lineWeight s.canvas
        (mapGet (generateDictionary (mergeArgs tg0 args).1 nailsList).pathsDictionary
          (getPairKey s.nailIndex j)))
    (hadv : plannerIteration (generateDictionary (mergeArgs tg0 args).1 nailsList)
      nailsList.length s = Outcome.advanced s') :
    ((s'.canvas.GrayAt x y).val : Int)
      = if s.canvas.Rect.contains x y = true ∧
            (⟨x, y⟩ : Point) ∈
              mapGet (generateDictionary (mergeArgs tg0 args).1 nailsList).pathsDictionary
                (getPairKey s.nailIndex s'.nailIndex)
        then min 255 (((s.canvas.GrayAt x y).val : Int)
          + (generateDictionary (mergeArgs tg0 args).1 nailsList).brightnessFactor)
        else ((s.canvas.GrayAt x y).val : Int) := by
  obtain ⟨best, hscan, -, rfl⟩ := plannerIteration_advanced hadv
  have hb : (generateDictionary (mergeArgs tg0 args).1 nailsList).brightnessFactor
      = (if args.BrightnessFactor > 0 then args.BrightnessFactor else 50) :=
    mergeArgs_brightnessFactor tg0 args
  have h1 : 0 ≤ (generateDictionary (mergeArgs tg0 args).1 nailsList).brightnessFactor := by
    rw [hb]; split_ifs <;> omega
  have h2 : (generateDictionary (mergeArgs tg0 args).1 nailsList).brightnessFactor
      ≤ 2 ^ 63 - 256 := by
    rw [hb]; split_ifs <;> omega
  rcases scan_range_spec hscan with ⟨-, hle⟩ | ⟨m, -, -, hbest, -, -, -⟩
  · obtain ⟨j, hj, hs, hw⟩ := hsel
    have := hle j hj hs
    omega
  · rw [hbest]
    exact brighten_frame _ h1 h2 _ (buildDictionary_line_nodup nailsList _) _ _ _

/-- Witness for `brightening_step`: the first iteration on a 4×4 canvas of intensity 1
with the default brightness factor 50 selects nail 2; the pixel `(3, 2)` on the line
ends with intensity 51. -/
theorem brightening_step_witness :
    fourNailArgs.BrightnessFactor ≤ 2 ^ 63 - 256 ∧
    (((brighten (generateDictionary (mergeArgs zeroGenerator fourNailArgs).1 fourNails)
        (uniformImage 1) [⟨4, 2⟩, ⟨3, 2⟩, ⟨2, 2⟩, ⟨1, 2⟩, ⟨0, 2⟩]).GrayAt 3 2).val : Int) = 51 :=
  ⟨by decide,
   (brightening_step zeroGenerator fourNailArgs fourNails
     { nailIndex := 0, pathsList := [], usedPaths := [], canvas := uniformImage 1 }
     { nailIndex := 2, pathsList := [⟨0, 2⟩], usedPaths := ["0:2"]
       canvas := brighten (generateDictionary (mergeArgs zeroGenerator fourNailArgs).1 fourNails)
         (uniformImage 1) [⟨4, 2⟩, ⟨3, 2⟩, ⟨2, 2⟩, ⟨1, 2⟩, ⟨0, 2⟩] }
     3 2 (by decide) ⟨2, by decide, by decide, by decide⟩ rfl).trans (by decide)⟩

/-! ## Rendering -/

theorem SetGray_Rect (g : Gray) (x y : Int) (v : Fin 256) : (g.SetGray x y v).Rect = g.Rect := by
  unfold Gray.SetGray
  split_ifs <;> rfl

theorem darkenLine_Rect (line : List Point) : ∀ g : Gray, (darkenLine g line).Rect = g.Rect := by
  induction line with
  | nil => intro g; rfl
  | cons p rest ih =>
    intro g
    unfold darkenLine
    rw [List.foldl_cons]
    exact (ih _).trans (SetGray_Rect _ _ _ _)

theorem darken_value_eq (p : Fin 256) :
    (((uint8 (max ((p.val : Int) - 20) 0)).val : Nat) : Int) = max ((p.val : Int) - 20) 0 := by
  have hp := p.isLt
  unfold uint8
  simp only
  omega

/-- The darkening loop over a line without repeated pixels: a pixel of the image on the
line goes down by 20, not below 0; every other pixel keeps its value. -/
theorem darkenLine_frame (line : List Point) (hnd : line.Nodup) :
    ∀ (g : Gray) (x y : Int),
      (((darkenLine g line).GrayAt x y).val : Int)
        = if g.Rect.contains x y = true ∧ (⟨x, y⟩ : Point) ∈ line
          then max (((g.GrayAt x y).val : Int) - 20) 0
          else ((g.GrayAt x y).val : Int) := by
  induction line with
  | nil => intro g x y; simp [darkenLine]
  | cons p rest ih =>
    intro g x y
    obtain ⟨hp, hrest⟩ := List.nodup_cons.mp hnd
    have hstep : darkenLine g (p :: rest)
        = darkenLine (g.SetGray p.X p.Y (uint8 (max (((g.GrayAt p.X p.Y).val : Int) - 20) 0)))
            rest := rfl
    rw [hstep, ih hrest, SetGray_Rect, GrayAt_SetGray]
    by_cases hxy : x = p.X ∧ y = p.Y
    · obtain ⟨rfl, rfl⟩ := hxy
      have hmem : (⟨p.X, p.Y⟩ : Point) ∉ rest := hp
      by_cases hin : g.Rect.contains p.X p.Y = true
      · simp only [hin, hmem, and_false, if_false, and_self, if_true, List.mem_cons, true_or,
          true_and]
        exact darken_value_eq _
      · simp [hin]
    · have hne : (⟨x, y⟩ : Point) ≠ p := by
        intro h
        apply hxy
        rw [← h]
        exact ⟨rfl, rfl⟩
      simp only [hxy, and_false, if_false, List.mem_cons, hne, false_or]

/-- Drawing a list of paths whose dictionary lines have no repeated pixel lowers a pixel
of the image by 20 for each path whose line contains it, not below 0. -/
theorem drawPaths_value (d : Dict) (hd : ∀ k, (mapGet d k).Nodup) (x y : Int) :
    ∀ (paths : List Path) (g : Gray), g.Rect.contains x y = true →
      (((paths.foldl (fun (g : Gray) (path : Path) =>
          darkenLine g (mapGet d (getPairKey path.StartingNail path.EndingNail))) g).GrayAt
            x y).val : Int)
        = max 0 (((g.GrayAt x y).val : Int) - 20 *
            (((paths.filter (fun (path : Path) => decide ((⟨x, y⟩ : Point) ∈
              mapGet d (getPairKey path.StartingNail path.EndingNail)))).length : Nat) : Int)) := by
  intro paths
  induction paths with
  | nil =>
    intro g _
    have := (g.GrayAt x y).isLt
    simp only [List.foldl_nil, List.filter_nil, List.length_nil, Nat.cast_zero, mul_zero,
      sub_zero]
    omega
  | cons p rest ih =>
    intro g hin
    rw [List.foldl_cons, ih _ (by rw [darkenLine_Rect]; exact hin),
      darkenLine_frame _ (hd _)]
    have hv := (g.GrayAt x y).isLt
    by_cases hmem : (⟨x, y⟩ : Point) ∈ mapGet d (getPairKey p.StartingNail p.EndingNail)
    · simp only [hin, hmem, and_self, if_true, List.filter_cons, decide_True, List.length_cons,
        Nat.cast_add, Nat.cast_one]
      omega
    · simp only [hmem, and_false, if_false, List.filter_cons, decide_False,
        Bool.false_eq_true]

theorem drawPaths_Rect (d : Dict) :
    ∀ (paths : List Path) (g : Gray),
      (paths.foldl (fun (g : Gray) (path : Path) =>
        darkenLine g (mapGet d (getPairKey path.StartingNail path.EndingNail))) g).Rect
        = g.Rect := by
  intro paths
  induction paths with
  | nil => intro g; rfl
  | cons p rest ih => intro g; rw [List.foldl_cons, ih, darkenLine_Rect]

theorem whiteCanvas_value (imgSize x y : Int) (hx0 : 0 ≤ x) (hx1 : x < imgSize) (hy0 : 0 ≤ y)
    (hy1 : y < imgSize) :
    (whiteCanvas imgSize).Rect.contains x y = true ∧
    (((whiteCanvas imgSize).GrayAt x y).val : Int) = 255 := by
  have hc : (whiteCanvas imgSize).Rect.contains x y = true := by
    simp only [whiteCanvas, imageRect, Rectangle.contains, Bool.and_eq_true, decide_eq_true_eq]
    omega
  refine ⟨hc, ?_⟩
  unfold Gray.GrayAt
  rw [if_pos hc]
  simp only [whiteCanvas]
  rw [if_pos ⟨hx0, hx1, hy0, hy1⟩]
  rfl

/-- C13. Rendered raster: when the dictionary, built by `generateDictionary`, is not empty,
`GeneratePathsImage` returns a gray image with the bounds
`image.Rect(0, 0, imgSize, imgSize)` in which every pixel `(x, y)` with
`0 ≤ x, y < imgSize` has the value `max(0, 255 - 20 * k)`, where `k` is the number of
entries of the path list whose dictionary line contains the pixel; a pixel on no line
is 255. -/
theorem rendered_raster (tg tg0 : ThreadGenerator) (nailsList : List Nail)
    (hdict : tg.pathsDictionary = (generateDictionary tg0 nailsList).pathsDictionary)
    (hne : tg.pathsDictionary ≠ []) :
    ∃ img : Gray, GeneratePathsImage tg = Except.ok img ∧
      img.Rect = imageRect 0 0 tg.imgSize tg.imgSize ∧
      (0 ≤ tg.imgSize → img.Rect = ⟨0, 0, tg.imgSize, tg.imgSize⟩) ∧
      ∀ x y : Int, 0 ≤ x → x < tg.imgSize → 0 ≤ y → y < tg.imgSize →
        ((img.GrayAt x y).val : Int) = max 0 (255 - 20 * (coverCount tg x y : Int)) ∧
        (coverCount tg x y = 0 → ((img.GrayAt x y).val : Int) = 255) := by
  have hlen : ¬ tg.pathsDictionary.length = 0 := by
    rw [List.length_eq_zero]; exact hne
  have hnd : ∀ k, (mapGet tg.pathsDictionary k).Nodup := by
    intro k
    rw [hdict]
    exact buildDictionary_line_nodup nailsList k
  refine ⟨_, by unfold GeneratePathsImage; rw [if_neg hlen], ?_, ?_, ?_⟩
  · rw [drawPaths_Rect]
    rfl
  · intro h0
    rw [drawPaths_Rect]
    simp only [whiteCanvas, imageRect, Rectangle.mk.injEq]
    omega
  · intro x y hx0 hx1 hy0 hy1
    obtain ⟨hc, hv⟩ := whiteCanvas_value tg.imgSize x y hx0 hx1 hy0 hy1
    have hval := drawPaths_value tg.pathsDictionary hnd x y tg.pathsList _ hc
    rw [hv] at hval
    refine ⟨hval, ?_⟩
    intro hk
    rw [hval]
    unfold coverCount at hk
    rw [hk]
    simp


/-- Witness for `rendered_raster`: the generator after the run on the black 4×4 canvas
(paths `(0, 2)` and `(2, 0)`); the pixel `(2, 2)` lies on the line of both paths and is
rendered as `255 - 2 * 20 = 215`. -/
theorem rendered_raster_witness :
    ({ generateDictionary fourNailConfig fourNails with
        pathsList := [⟨0, 2⟩, ⟨2, 0⟩] } : ThreadGenerator).pathsDictionary ≠ [] ∧
    ∃ img : Gray,
      GeneratePathsImage { generateDictionary fourNailConfig fourNails with
        pathsList := [⟨0, 2⟩, ⟨2, 0⟩] } = Except.ok img ∧
      ((img.GrayAt 2 2).val : Int) = 215 :=
  ⟨by decide,
   (rendered_raster
      { generateDictionary fourNailConfig fourNails with pathsList := [⟨0, 2⟩, ⟨2, 0⟩] }
      fourNailConfig fourNails rfl (by decide)).imp
    (fun _ h => ⟨h.1,
      (h.2.2.2 2 2 (by decide) (by decide) (by decide) (by decide)).1.trans (by decide)⟩)⟩

theorem computePathsListFromImage_state {t t' : ThreadGenerator} {sourceImage : Gray}
    {nailsList : List Nail} {paths : List Path}
    (h : computePathsListFromImage t sourceImage nailsList = some (t', paths)) :
    t' = { generateDictionary t nailsList with pathsList := paths } := by
  unfold computePathsListFromImage at h
  simp only at h
  split at h
  · exact absurd h (by simp)
  · simp only [Option.some.injEq, Prod.mk.injEq] at h
    obtain ⟨rfl, rfl⟩ := h
    rfl

/-- The generator after a successful `Generate`. -/
theorem Generate_success {env : Env} {tg tg' : ThreadGenerator} {args : Args}
    {stats : OutputStats} (h : Generate env tg args = some (tg', Except.ok stats)) :
    tg'.imgSize = (mergeArgs tg args).1.imgSize ∧
    tg'.pathsDictionary = buildDictionary tg'.nailsList ∧
    stats.TotalLines = (tg'.pathsList.length : Int) ∧ stats.ThreadLength = 0 := by
  by_cases hname : args.ImageName = ""
  · rw [Generate_of_empty_name env tg args hname] at h
    simp at h
  · cases himg : env.getSourceImage (mergeArgs tg args).1 with
    | error e =>
      unfold Generate at h
      rw [mergeArgs_pair] at h
      simp [hname, himg] at h
    | ok img =>
      rw [Generate_of_image env tg args img hname himg] at h
      unfold generateFromImage at h
      split at h
      · exact absurd h (by simp)
      · rename_i t1 nl hnails
        split at h
        · exact absurd h (by simp)
        · rename_i t2 paths hrun
          simp only [Option.some.injEq, Prod.mk.injEq, Except.ok.injEq] at h
          obtain ⟨rfl, rfl⟩ := h
          have ht2 := computePathsListFromImage_state hrun
          unfold getNailsListFromImage at hnails
          split_ifs at hnails
          simp only [Option.some.injEq, Prod.mk.injEq] at hnails
          obtain ⟨rfl, rfl⟩ := hnails
          subst ht2
          exact ⟨rfl, rfl, rfl, rfl⟩

/-- C14. Renderer state error: `GeneratePathsImage` returns an error, and no image,
exactly when the dictionary is empty; it fails on a generator that has never run, and
after a successful run that built a non-empty dictionary and selected no path it
returns the `imgSize`×`imgSize` image whose pixels are all 255. -/
theorem renderer_state_error (env : Env) (tg tg' : ThreadGenerator) (args : Args)
    (stats : OutputStats) (hrun : Generate env tg args = some (tg', Except.ok stats))
    (hzero : stats.TotalLines = 0) (hdict : tg'.pathsDictionary ≠ []) :
    (∀ t : ThreadGenerator,
      (∃ e, GeneratePathsImage t = Except.error e) ↔ t.pathsDictionary = []) ∧
    GeneratePathsImage zeroGenerator = Except.error "Dictionary is empty" ∧
    ∃ img : Gray, GeneratePathsImage tg' = Except.ok img ∧
      0 < tg'.imgSize ∧ img.Rect = ⟨0, 0, tg'.imgSize, tg'.imgSize⟩ ∧
      ∀ x y : Int, img.Rect.contains x y = true → ((img.GrayAt x y).val : Int) = 255 := by
  refine ⟨?_, rfl, ?_⟩
  · intro t
    unfold GeneratePathsImage
    by_cases h : t.pathsDictionary = []
    · simp [h]
    · have hlen : ¬ t.pathsDictionary.length = 0 := by rw [List.length_eq_zero]; exact h
      simp [h, hlen]
  · obtain ⟨hsize, -, hlines, -⟩ := Generate_success hrun
    have hpaths : tg'.pathsList = [] := by
      rw [hzero] at hlines
      exact List.length_eq_zero.mp (by exact_mod_cast hlines.symm)
    have hpos : 0 < tg'.imgSize := by
      rw [hsize, mergeArgs_imgSize]; split_ifs <;> omega
    have hlen : ¬ tg'.pathsDictionary.length = 0 := by
      rw [List.length_eq_zero]; exact hdict
    have hrect : (whiteCanvas tg'.imgSize).Rect = ⟨0, 0, tg'.imgSize, tg'.imgSize⟩ := by
      simp only [whiteCanvas, imageRect, Rectangle.mk.injEq]
      omega
    refine ⟨whiteCanvas tg'.imgSize, ?_, hpos, hrect, ?_⟩
    · unfold GeneratePathsImage
      rw [if_neg hlen, hpaths]
      rfl
    · intro x y hc
      rw [hrect] at hc
      simp only [Rectangle.contains, Bool.and_eq_true, decide_eq_true_eq] at hc
      exact (whiteCanvas_value tg'.imgSize x y (by omega) (by omega) (by omega) (by omega)).2

/-- Witness for `renderer_state_error`: four nails with the default
`minimumDifference = 10`; the run builds six dictionary lines and selects no path. -/
theorem renderer_state_error_witness :
    Generate whiteEnv zeroGenerator (startArgs 0)
      = some ({ generateDictionary { startAt 0 with nailsList := fourNails } fourNails with
                  pathsList := [] }, Except.ok { TotalLines := 0, ThreadLength := 0 }) ∧
    ∃ img : Gray,
      GeneratePathsImage { generateDictionary { startAt 0 with nailsList := fourNails }
        fourNails with pathsList := [] } = Except.ok img ∧
      img.Rect = ⟨0, 0, 4, 4⟩ :=
  ⟨by rfl,
   (renderer_state_error whiteEnv zeroGenerator
      { generateDictionary { startAt 0 with nailsList := fourNails } fourNails with
          pathsList := [] }
      (startArgs 0) { TotalLines := 0, ThreadLength := 0 } (by rfl) rfl (by decide)).2.2.imp
    (fun _ h => ⟨h.1, h.2.2.1⟩)⟩

/-! ## Canonical pair keys -/

theorem getPairKey_data_le {a b : Nat} (h : a ≤ b) :
    (getPairKey a b).data = Nat.toDigits 10 a ++ ':' :: Nat.toDigits 10 b := by
  rcases Nat.lt_or_eq_of_le h with hlt | rfl
  · exact getPairKey_data hlt
  · simp only [getPairKey, lt_self_iff_false, gt_iff_lt, if_false]
    show (Nat.repr a ++ ":" ++ Nat.repr a).data = _
    simp [Nat.repr, String.data_append, List.asString]

theorem getPairKey_injective_le {a b c d : Nat} (hab : a ≤ b) (hcd : c ≤ d)
    (h : getPairKey a b = getPairKey c d) : a = c ∧ b = d := by
  have hdata := congrArg String.data h
  rw [getPairKey_data_le hab, getPairKey_data_le hcd] at hdata
  obtain ⟨h1, h2⟩ := split_at_colon _ _ _ _ (toDigits_spec a).2 (toDigits_spec c).2 hdata
  constructor
  · rw [← (toDigits_spec a).1, h1, (toDigits_spec c).1]
  · rw [← (toDigits_spec b).1, h2, (toDigits_spec d).1]

theorem getPairKey_min_max (a b : Nat) :
    getPairKey a b = getPairKey ((min a b : Nat) : Int) ((max a b : Nat) : Int) := by
  rcases Nat.le_total a b with h | h
  · rw [min_eq_left h, max_eq_right h]
  · rw [min_eq_right h, max_eq_left h, getPairKey_comm]

/-- C26. Canonical pair key: for all non-negative integers `a`, `b`, `c`, `d` the key of
`(a, b)` is the key of `(b, a)`, and the keys of `(a, b)` and `(c, d)` are the same text
exactly when the unordered pairs are equal. -/
theorem canonical_pair_key (a b c d : Nat) :
    getPairKey a b = getPairKey b a ∧
    (getPairKey a b = getPairKey c d ↔ (a = c ∧ b = d) ∨ (a = d ∧ b = c)) := by
  refine ⟨getPairKey_comm a b, ?_, ?_⟩
  · intro h
    rw [getPairKey_min_max a b, getPairKey_min_max c d] at h
    obtain ⟨h1, h2⟩ := getPairKey_injective_le (min_le_max) (min_le_max) h
    omega
  · rintro (⟨rfl, rfl⟩ | ⟨rfl, rfl⟩)
    · rfl
    · exact getPairKey_comm _ _

/-! ## Number of paths -/

/-- Each pass through the planner loop appends at most one path. -/
theorem plannerLoop_length {tg : ThreadGenerator} {nailsLen : Nat} :
    ∀ (n : Nat) (s s' : PlannerState), plannerLoop tg nailsLen n s = some s' →
      s'.pathsList.length ≤ s.pathsList.length + n := by
  intro n
  induction n with
  | zero =>
    intro s s' h
    simp only [plannerLoop, Option.some.injEq] at h
    rw [← h]
    exact Nat.le_refl _
  | succ n ih =>
    intro s s' h
    simp only [plannerLoop] at h
    split at h
    · exact absurd h (by simp)
    · simp only [Option.some.injEq] at h
      rw [← h]
      omega
    · rename_i s1 hs1
      obtain ⟨best, -, -, rfl⟩ := plannerIteration_advanced hs1
      have := ih _ s' h
      simp only [List.length_append, List.length_singleton] at this
      omega

/-- C24. Path-count bound: the path list returned by `computePathsListFromImage` has at
most `maxPaths` entries (none when `maxPaths` is not positive). -/
theorem path_count_bound (tg tg' : ThreadGenerator) (sourceImage : Gray)
    (nailsList : List Nail) (paths : List Path)
    (h : computePathsListFromImage tg sourceImage nailsList = some (tg', paths)) :
    paths.length ≤ tg.maxPaths.toNat ∧ (paths.length : Int) ≤ max 0 tg.maxPaths ∧
    GetPathsList tg' = paths := by
  unfold computePathsListFromImage at h
  simp only at h
  split at h
  · exact absurd h (by simp)
  · rename_i s hs
    simp only [Option.some.injEq, Prod.mk.injEq] at h
    obtain ⟨rfl, rfl⟩ := h
    have hlen := plannerLoop_length _ _ _ hs
    simp only [List.length_nil, Nat.zero_add] at hlen
    have hmax : (generateDictionary tg nailsList).maxPaths = tg.maxPaths := rfl
    rw [hmax] at hlen
    refine ⟨hlen, by omega, rfl⟩

/-- Witness for `path_count_bound`: four nails on a black 4×4 canvas with `MaxPaths = 1`;
the loop stops after one path although a second one would follow. -/
theorem path_count_bound_witness :
    computePathsListFromImage
        (mergeArgs zeroGenerator { fourNailArgs with MaxPaths := 1 }).1 (uniformImage 0) fourNails
      = some ({ generateDictionary
                  (mergeArgs zeroGenerator { fourNailArgs with MaxPaths := 1 }).1 fourNails with
                  pathsList := [⟨0, 2⟩] }, [⟨0, 2⟩]) ∧
    ([⟨0, 2⟩] : List Path).length ≤ (1 : Int).toNat :=
  ⟨by decide,
   (path_count_bound (mergeArgs zeroGenerator { fourNailArgs with MaxPaths := 1 }).1
     { generateDictionary (mergeArgs zeroGenerator { fourNailArgs with MaxPaths := 1 }).1
         fourNails with pathsList := [⟨0, 2⟩] }
     (uniformImage 0) fourNails [⟨0, 2⟩] (by decide)).1⟩

/-! ## No division by zero in scoring -/

theorem bresenham_ne_nil (A B : Point) : bresenham A B ≠ [] := by
  intro h
  have := (bresenhamFuel_enough A B 0).2.1
  rw [h] at this
  simp at this

/-- The dictionary built by `generateDictionary` has a non-empty line for every pair of
distinct nail indices. -/
theorem buildDictionary_line_ne_nil (nailsList : List Nail) (cur : Int) (j : Nat)
    (h0 : 0 ≤ cur) (h1 : cur < (nailsList.length : Int)) (hj : j < nailsList.length)
    (hne : cur ≠ (j : Int)) :
    mapGet (buildDictionary nailsList) (getPairKey cur j) ≠ [] := by
  obtain ⟨c, rfl⟩ := Int.eq_ofNat_of_zero_le h0
  have hc : c < nailsList.length := by exact_mod_cast h1
  have hcj : c ≠ j := fun h => hne (by rw [h])
  have hlt : min c j < max c j := by
    rcases Nat.lt_or_gt_of_ne hcj with h | h
    · rw [min_eq_left h.le, max_eq_right h.le]; exact h
    · rw [min_eq_right h.le, max_eq_left h.le]; exact h
  rw [getPairKey_min_max, buildDictionary_get nailsList hlt (max_lt hc hj)]
  exact bresenham_ne_nil _ _

/-- With the current nail inside the nail list, the candidate loop does not panic. -/
theorem scanCandidates_total (tg : ThreadGenerator) (nailsList : List Nail)
    (hdict : tg.pathsDictionary = buildDictionary nailsList) (canvas : Gray)
    (used : List String) (cur : Int) (h0 : 0 ≤ cur) (h1 : cur < (nailsList.length : Int)) :
    ∀ (l : List Nat) (b : Best), (∀ j ∈ l, j < nailsList.length) →
      ∃ b', scanCandidates tg canvas nailsList.length used cur l b = some b' := by
  intro l
  induction l with
  | nil => intro b _; exact ⟨b, rfl⟩
  | cons j rest ih =>
    intro b hl
    have hj : j < nailsList.length := hl j (by simp)
    have hrest : ∀ i ∈ rest, i < nailsList.length := fun i hi =>
      hl i (List.mem_cons_of_mem _ hi)
    simp only [scanCandidates]
    rw [candidateStep_eval]
    by_cases hs : skipCandidate tg nailsList.length used cur j = true
    · rw [if_pos hs]
      exact ih b hrest
    · have hsf : skipCandidate tg nailsList.length used cur j = false := by simpa using hs
      have hline : mapGet tg.pathsDictionary (getPairKey cur j) ≠ [] := by
        rw [hdict]
        exact buildDictionary_line_ne_nil nailsList cur j h0 h1 hj (ne_of_not_skipped hsf)
      rw [if_neg hs, if_neg hline]
      by_cases hw : lineWeight canvas (mapGet tg.pathsDictionary (getPairKey cur j))
          > b.maxWeight
      · rw [if_pos hw]
        exact ih _ hrest
      · rw [if_neg hw]
        exact ih _ hrest

/-- With the current nail inside the nail list, a planner iteration does not panic. -/
theorem plannerIteration_total (tg : ThreadGenerator) (nailsList : List Nail)
    (hdict : tg.pathsDictionary = buildDictionary nailsList) (s : PlannerState)
    (h0 : 0 ≤ s.nailIndex) (h1 : s.nailIndex < (nailsList.length : Int)) :
    plannerIteration tg nailsList.length s ≠ Outcome.panicked := by
  obtain ⟨b', hb'⟩ := scanCandidates_total tg nailsList hdict s.canvas s.usedPaths s.nailIndex
    h0 h1 (List.range nailsList.length) { maxWeight := 0, maxLine := [], maxnailIndex := 0 }
    (fun j hj => List.mem_range.mp hj)
  unfold plannerIteration
  rw [hb']
  simp only
  split_ifs <;> simp

/-- From a current nail inside the nail list, the planner loop never panics and its
current nail stays inside the nail list. -/
theorem plannerLoop_total (tg : ThreadGenerator) (nailsList : List Nail)
    (hdict : tg.pathsDictionary = buildDictionary nailsList) :
    ∀ (n : Nat) (s : PlannerState), 0 ≤ s.nailIndex → s.nailIndex < (nailsList.length : Int) →
      ∃ s', plannerLoop tg nailsList.length n s = some s' ∧
        0 ≤ s'.nailIndex ∧ s'.nailIndex < (nailsList.length : Int) := by
  intro n
  induction n with
  | zero => intro s h0 h1; exact ⟨s, rfl, h0, h1⟩
  | succ n ih =>
    intro s h0 h1
    simp only [plannerLoop]
    cases hit : plannerIteration tg nailsList.length s with
    | panicked => exact absurd hit (plannerIteration_total tg nailsList hdict s h0 h1)
    | halted => exact ⟨s, rfl, h0, h1⟩
    | advanced s1 =>
      obtain ⟨best, hscan, -, rfl⟩ := plannerIteration_advanced hit
      have hN : 0 < nailsList.length := by omega
      have hbest := maxnailIndex_range hscan hN
      exact ih _ hbest.1 hbest.2

/-- C23. No division by zero in scoring: if `0 ≤ startingNail < N`, then
`computePathsListFromImage` returns without a panic, and the state at the start of every
planner iteration has its current nail in `[0, N)`, the iteration does not panic, and
every candidate passing the distance and used-pair filters has a non-empty dictionary
line.  Without the precondition the division can panic: with four nails,
`StartingNail = 5` and `MinimumDifference = 1` the candidate 2 passes the filters and has
no dictionary line. -/
theorem no_division_by_zero (tg : ThreadGenerator) (sourceImage : Gray) (nailsList : List Nail)
    (h0 : 0 ≤ tg.startingNail) (h1 : tg.startingNail < (nailsList.length : Int)) :
    (∃ r, computePathsListFromImage tg sourceImage nailsList = some r) ∧
    (∀ k : Nat, ∃ s,
      plannerLoop (generateDictionary tg nailsList) nailsList.length k
        { nailIndex := tg.startingNail, pathsList := [], usedPaths := []
          canvas := { Rect := sourceImage.Rect, Pix := fun x y => sourceImage.GrayAt x y } }
        = some s ∧
      0 ≤ s.nailIndex ∧ s.nailIndex < (nailsList.length : Int) ∧
      plannerIteration (generateDictionary tg nailsList) nailsList.length s
        ≠ Outcome.panicked ∧
      ∀ j : Nat, j < nailsList.length →
        skipCandidate (generateDictionary tg nailsList) nailsList.length s.usedPaths
          s.nailIndex j = false →
        mapGet (generateDictionary tg nailsList).pathsDictionary (getPairKey s.nailIndex j)
          ≠ []) ∧
    computePathsListFromImage
      (mergeArgs zeroGenerator
        { fourNailArgs with StartingNail := 5, MinimumDifference := 1 }).1
      (uniformImage 255) fourNails = none := by
  have hdict : (generateDictionary tg nailsList).pathsDictionary = buildDictionary nailsList :=
    rfl
  refine ⟨?_, ?_, by decide⟩
  · obtain ⟨s, hs, -, -⟩ := plannerLoop_total (generateDictionary tg nailsList) nailsList hdict
      tg.maxPaths.toNat
      { nailIndex := tg.startingNail, pathsList := [], usedPaths := []
        canvas := { Rect := sourceImage.Rect, Pix := fun x y => sourceImage.GrayAt x y } }
      h0 h1
    refine ⟨({ generateDictionary tg nailsList with pathsList := s.pathsList }, s.pathsList), ?_⟩
    unfold computePathsListFromImage
    simp only
    have hs' : plannerLoop (generateDictionary tg nailsList) nailsList.length
        (generateDictionary tg nailsList).maxPaths.toNat
        { nailIndex := (generateDictionary tg nailsList).startingNail, pathsList := []
          usedPaths := []
          canvas := { Rect := sourceImage.Rect, Pix := fun x y => sourceImage.GrayAt x y } }
        = some s := hs
    rw [hs']
  · intro k
    obtain ⟨s, hs, hs0, hs1⟩ := plannerLoop_total (generateDictionary tg nailsList) nailsList
      hdict k
      { nailIndex := tg.startingNail, pathsList := [], usedPaths := []
        canvas := { Rect := sourceImage.Rect, Pix := fun x y => sourceImage.GrayAt x y } }
      h0 h1
    refine ⟨s, hs, hs0, hs1,
      plannerIteration_total (generateDictionary tg nailsList) nailsList hdict s hs0 hs1, ?_⟩
    intro j hj hskip
    rw [hdict]
    exact buildDictionary_line_ne_nil nailsList s.nailIndex j hs0 hs1 hj
      (ne_of_not_skipped hskip)

/-- Witness for `no_division_by_zero`: four nails with `minimumDifference = 2` on a black
4×4 canvas.  From nail 0 the candidate 2 passes the filters, the weight of its
five-pixel line is computed by a division by 5, and the run returns two paths. -/
theorem no_division_by_zero_witness :
    (0 ≤ fourNailConfig.startingNail ∧
      fourNailConfig.startingNail < (fourNails.length : Int)) ∧
    skipCandidate (generateDictionary fourNailConfig fourNails) 4 [] 0 2 = false ∧
    (mapGet (generateDictionary fourNailConfig fourNails).pathsDictionary
      (getPairKey 0 2)).length = 5 ∧
    (computePathsListFromImage fourNailConfig (uniformImage 0) fourNails).map Prod.snd
      = some [⟨0, 2⟩, ⟨2, 0⟩] ∧
    ∃ r, computePathsListFromImage fourNailConfig (uniformImage 0) fourNails = some r :=
  ⟨by decide, by decide, by decide, by decide,
   (no_division_by_zero fourNailConfig (uniformImage 0) fourNails (by decide) (by decide)).1⟩

/-! ## Connectedness and length of a rasterised line -/

theorem chain_getElem_of {α : Type} {R : α → α → Prop} :
    ∀ (l : List α), List.Chain' R l →
      ∀ (k : Nat) (p q : α), l[k]? = some p → l[k + 1]? = some q → R p q := by
  intro l
  induction l with
  | nil => intro _ k p q hp; simp at hp
  | cons a t ih =>
    intro hc k p q hp hq
    cases k with
    | zero =>
      cases t with
      | nil => simp at hq
      | cons b u =>
        simp only [List.getElem?_cons_zero, Option.some.injEq, zero_add,
          List.getElem?_cons_succ] at hp hq
        subst hp; subst hq
        exact (List.chain'_cons.mp hc).1
    | succ k =>
      simp only [List.getElem?_cons_succ] at hp hq
      exact ih hc.tail k p q hp hq

theorem bresenhamLoop_head (dx yD sX sY : Int) (e : Point) :
    ∀ (fuel : Nat) (p : Point) (err : Int) (pts : List Point),
      bresenhamLoop dx yD sX sY e fuel p err = some pts → pts.head? = some p := by
  intro fuel
  cases fuel with
  | zero => intro p err pts h; simp [bresenhamLoop] at h
  | succ fuel =>
    intro p err pts h
    rw [bresenhamLoop_succ] at h
    by_cases hpe : p = e
    · simp only [hpe, if_true, Option.some.injEq] at h
      rw [← h, hpe]
      rfl
    · simp only [hpe, if_false, Option.map_eq_some'] at h
      obtain ⟨rest, -, rfl⟩ := h
      rfl

theorem nextPoint_chebyshev {dx yD sX sY : Int} (hsX : sX = 1 ∨ sX = -1)
    (hsY : sY = 1 ∨ sY = -1) {e p : Point} {err : Int}
    (hinv : LineInv dx yD sX sY e p err) (hne : p ≠ e) :
    chebyshev p (nextPoint dx yD sX sY p err) = 1 := by
  obtain ⟨-, hdec, -, -⟩ := LineInv_step hsX hsY hinv hne
  have hmoved : nextPoint dx yD sX sY p err ≠ p := by
    intro h
    rw [h] at hdec
    exact lt_irrefl _ hdec
  have hX : (nextPoint dx yD sX sY p err).X = p.X ∨ (nextPoint dx yD sX sY p err).X = p.X + sX := by
    unfold nextPoint
    simp only
    split_ifs
    · exact Or.inr rfl
    · exact Or.inl rfl
  have hY : (nextPoint dx yD sX sY p err).Y = p.Y ∨ (nextPoint dx yD sX sY p err).Y = p.Y + sY := by
    unfold nextPoint
    simp only
    split_ifs
    · exact Or.inr rfl
    · exact Or.inl rfl
  have hsame : (nextPoint dx yD sX sY p err).X = p.X → (nextPoint dx yD sX sY p err).Y = p.Y →
      False := by
    intro h1 h2
    apply hmoved
    cases hq : nextPoint dx yD sX sY p err with
    | mk qx qy =>
      rw [hq] at h1 h2
      simp only at h1 h2
      subst h1; subst h2
      rfl
  unfold chebyshev
  rcases hX with hX | hX <;> rcases hY with hY | hY
  · exact absurd (hsame hX hY) id
  · rw [hX, hY]; rcases hsY with rfl | rfl <;> simp
  · rw [hX, hY]; rcases hsX with rfl | rfl <;> simp
  · rw [hX, hY]; rcases hsX with rfl | rfl <;> rcases hsY with rfl | rfl <;> simp

/-- Consecutive pixels produced by the loop of `bresenham` are neighbours. -/
theorem bresenhamLoop_chain {dx yD sX sY : Int} (hsX : sX = 1 ∨ sX = -1)
    (hsY : sY = 1 ∨ sY = -1) (e : Point) :
    ∀ (fuel : Nat) (p : Point) (err : Int) (pts : List Point),
      LineInv dx yD sX sY e p err → bresenhamLoop dx yD sX sY e fuel p err = some pts →
      List.Chain' (fun a b : Point => chebyshev a b = 1) pts := by
  intro fuel
  induction fuel with
  | zero => intro p err pts _ h; simp [bresenhamLoop] at h
  | succ fuel ih =>
    intro p err pts hinv h
    rw [bresenhamLoop_succ] at h
    by_cases hpe : p = e
    · simp only [hpe, if_true, Option.some.injEq] at h
      rw [← h]
      exact List.chain'_singleton _
    · simp only [hpe, if_false, Option.map_eq_some'] at h
      obtain ⟨rest, hrest, rfl⟩ := h
      obtain ⟨hinv', -, -, -⟩ := LineInv_step hsX hsY hinv hpe
      refine List.chain'_cons'.mpr ⟨?_, ih _ _ _ hinv' hrest⟩
      intro y hy
      have hhead := bresenhamLoop_head _ _ _ _ _ _ _ _ _ hrest
      rw [hhead] at hy
      simp only [Option.mem_def, Option.some.injEq] at hy
      rw [← hy]
      exact nextPoint_chebyshev hsX hsY hinv hpe

theorem bresenham_run (A B : Point) :
    bresenhamLoop (abs (B.X - A.X)) (-abs (B.Y - A.Y)) (if A.X < B.X then 1 else -1)
      (if A.Y < B.Y then 1 else -1) B (bresenhamBound A B) A
      (abs (B.X - A.X) + -abs (B.Y - A.Y)) = some (bresenham A B) := by
  have h := (bresenhamFuel_enough A B 0).1
  simpa [bresenhamFuel] using h

theorem chebyshev_eq_one_iff (p q : Point) :
    chebyshev p q = 1 ↔
      (Int.natAbs (q.X - p.X) ≤ 1 ∧ Int.natAbs (q.Y - p.Y) ≤ 1 ∧ p ≠ q) := by
  unfold chebyshev
  constructor
  · intro h
    refine ⟨by omega, by omega, ?_⟩
    rintro rfl
    simp at h
  · rintro ⟨h1, h2, h3⟩
    have : ¬ (q.X = p.X ∧ q.Y = p.Y) := by
      rintro ⟨hx, hy⟩
      apply h3
      cases p; cases q
      simp only at hx hy
      rw [hx, hy]
    omega

/-- C21. 8-connectedness: for all integer points `A` and `B`, two consecutive pixels of
`bresenham(A, B)` differ by at most 1 in x and by at most 1 in y and are not equal: their
Chebyshev distance is exactly 1. -/
theorem bresenham_connected (A B : Point) (k : Nat) (p q : Point)
    (hp : (bresenham A B)[k]? = some p) (hq : (bresenham A B)[k + 1]? = some q) :
    Int.natAbs (q.X - p.X) ≤ 1 ∧ Int.natAbs (q.Y - p.Y) ≤ 1 ∧ p ≠ q ∧ chebyshev p q = 1 := by
  obtain ⟨hinv, -, -⟩ := LineInv_start A B
  have hchain := bresenhamLoop_chain (sign_cases A.X B.X) (sign_cases A.Y B.Y) B _ _ _ _ hinv
    (bresenham_run A B)
  have hc := chain_getElem_of _ hchain k p q hp hq
  obtain ⟨h1, h2, h3⟩ := (chebyshev_eq_one_iff p q).mp hc
  exact ⟨h1, h2, h3, hc⟩

/-- Witness for `bresenham_connected`: the first two pixels of the line from `(0, 0)` to
`(2, 1)` are `(0, 0)` and `(1, 1)`. -/
theorem bresenham_connected_witness :
    ((bresenham ⟨0, 0⟩ ⟨2, 1⟩)[0]? = some ⟨0, 0⟩ ∧ (bresenham ⟨0, 0⟩ ⟨2, 1⟩)[0 + 1]? = some ⟨1, 1⟩) ∧
    chebyshev ⟨0, 0⟩ ⟨1, 1⟩ = 1 :=
  ⟨by decide,
   (bresenham_connected ⟨0, 0⟩ ⟨2, 1⟩ 0 ⟨0, 0⟩ ⟨1, 1⟩ (by decide) (by decide)).2.2.2⟩

theorem remX_nextPoint_step {dx yD sX sY : Int} (hsX : sX = 1 ∨ sX = -1) (e p : Point)
    (err : Int) (hstep : 2 * err ≥ yD) :
    remX sX e (nextPoint dx yD sX sY p err) = remX sX e p - 1 := by
  unfold remX nextPoint
  simp only [hstep, if_true]
  rcases hsX with rfl | rfl <;> ring

theorem remY_nextPoint_step {dx yD sX sY : Int} (hsY : sY = 1 ∨ sY = -1) (e p : Point)
    (err : Int) (hstep : 2 * err ≤ dx) :
    remY sY e (nextPoint dx yD sX sY p err) = remY sY e p - 1 := by
  unfold remY nextPoint
  simp only [hstep, if_true]
  rcases hsY with rfl | rfl <;> ring

/-- When the line is at least as wide as it is high, every pass steps along x, and the
loop of `bresenham` returns one pixel more than the steps still to take along x. -/
theorem bresenhamLoop_length_x {dx yD sX sY : Int} (hsX : sX = 1 ∨ sX = -1)
    (hsY : sY = 1 ∨ sY = -1) (e : Point) (hmaj : -yD ≤ dx) :
    ∀ (fuel : Nat) (p : Point) (err : Int) (pts : List Point),
      LineInv dx yD sX sY e p err → 2 * err ≥ yD →
      bresenhamLoop dx yD sX sY e fuel p err = some pts →
      (pts.length : Int) = remX sX e p + 1 := by
  intro fuel
  induction fuel with
  | zero => intro p err pts _ _ h; simp [bresenhamLoop] at h
  | succ fuel ih =>
    intro p err pts hinv herr h
    rw [bresenhamLoop_succ] at h
    by_cases hpe : p = e
    · simp only [hpe, if_true, Option.some.injEq] at h
      rw [← h, hpe]
      simp [remX]
    · simp only [hpe, if_false, Option.map_eq_some'] at h
      obtain ⟨rest, hrest, rfl⟩ := h
      obtain ⟨hinv', -, -, -⟩ := LineInv_step hsX hsY hinv hpe
      have herr' : 2 * nextError dx yD err ≥ yD := by
        unfold nextError
        simp only [herr, if_true]
        split_ifs <;> omega
      have hlen := ih _ _ _ hinv' herr' hrest
      rw [remX_nextPoint_step hsX e p err herr] at hlen
      simp only [List.length_cons, Nat.cast_add, Nat.cast_one]
      omega

/-- When the line is at least as high as it is wide, every pass steps along y, and the
loop of `bresenham` returns one pixel more than the steps still to take along y. -/
theorem bresenhamLoop_length_y {dx yD sX sY : Int} (hsX : sX = 1 ∨ sX = -1)
    (hsY : sY = 1 ∨ sY = -1) (e : Point) (hmaj : dx ≤ -yD) :
    ∀ (fuel : Nat) (p : Point) (err : Int) (pts : List Point),
      LineInv dx yD sX sY e p err → 2 * err ≤ dx →
      bresenhamLoop dx yD sX sY e fuel p err = some pts →
      (pts.length : Int) = remY sY e p + 1 := by
  intro fuel
  induction fuel with
  | zero => intro p err pts _ _ h; simp [bresenhamLoop] at h
  | succ fuel ih =>
    intro p err pts hinv herr h
    rw [bresenhamLoop_succ] at h
    by_cases hpe : p = e
    · simp only [hpe, if_true, Option.some.injEq] at h
      rw [← h, hpe]
      simp [remY]
    · simp only [hpe, if_false, Option.map_eq_some'] at h
      obtain ⟨rest, hrest, rfl⟩ := h
      obtain ⟨hinv', -, -, -⟩ := LineInv_step hsX hsY hinv hpe
      have herr' : 2 * nextError dx yD err ≤ dx := by
        unfold nextError
        simp only [herr, if_true]
        split_ifs <;> omega
      have hlen := ih _ _ _ hinv' herr' hrest
      rw [remY_nextPoint_step hsY e p err herr] at hlen
      simp only [List.length_cons, Nat.cast_add, Nat.cast_one]
      omega

/-- The loop of `bresenham` makes exactly as many passes as it returns pixels: with
that much fuel it returns its result, with less it does not finish. -/
theorem bresenhamLoop_passes (dx yD sX sY : Int) (e : Point) :
    ∀ (fuel : Nat) (p : Point) (err : Int) (pts : List Point),
      bresenhamLoop dx yD sX sY e fuel p err = some pts →
      bresenhamLoop dx yD sX sY e pts.length p err = some pts ∧
      ∀ f : Nat, f < pts.length → bresenhamLoop dx yD sX sY e f p err = none := by
  intro fuel
  induction fuel with
  | zero => intro p err pts h; simp [bresenhamLoop] at h
  | succ fuel ih =>
    intro p err pts h
    rw [bresenhamLoop_succ] at h
    by_cases hpe : p = e
    · simp only [hpe, if_true, Option.some.injEq] at h
      rw [← h]
      refine ⟨by rw [List.length_singleton, bresenhamLoop_succ, hpe, if_pos rfl], ?_⟩
      intro f hf
      have hf0 : f = 0 := by simpa using hf
      rw [hf0]
      rfl
    · simp only [hpe, if_false, Option.map_eq_some'] at h
      obtain ⟨rest, hrest, rfl⟩ := h
      obtain ⟨hsome, hnone⟩ := ih _ _ _ hrest
      refine ⟨?_, ?_⟩
      · rw [List.length_cons, bresenhamLoop_succ, if_neg hpe, hsome]
        rfl
      · intro f hf
        cases f with
        | zero => rfl
        | succ f =>
          rw [bresenhamLoop_succ, if_neg hpe,
            hnone f (by simp only [List.length_cons] at hf; omega)]
          rfl

/-- C22. Rasterisation terminates: for all integer points `A` and `B` the loop of
`bresenham` reaches `B` and stops after exactly `max(|B.X - A.X|, |B.Y - A.Y|) + 1` passes,
returning that many pixels, the last of which is `B`; more fuel does not change the
result and less fuel is not enough. -/
theorem bresenham_terminates (A B : Point) :
    (bresenham A B).length
      = max (Int.natAbs (B.X - A.X)) (Int.natAbs (B.Y - A.Y)) + 1 ∧
    (bresenham A B).getLast? = some B ∧
    bresenhamFuel (max (Int.natAbs (B.X - A.X)) (Int.natAbs (B.Y - A.Y)) + 1) A B
      = some (bresenham A B) ∧
    (∀ extra : Nat,
      bresenhamFuel (max (Int.natAbs (B.X - A.X)) (Int.natAbs (B.Y - A.Y)) + 1 + extra) A B
        = some (bresenham A B)) ∧
    bresenhamFuel (max (Int.natAbs (B.X - A.X)) (Int.natAbs (B.Y - A.Y))) A B = none := by
  obtain ⟨hinv, hx, hy⟩ := LineInv_start A B
  have hrun := bresenham_run A B
  have hlen : (bresenham A B).length
      = max (Int.natAbs (B.X - A.X)) (Int.natAbs (B.Y - A.Y)) + 1 := by
    have habsx : abs (B.X - A.X) = (Int.natAbs (B.X - A.X) : Int) := rfl
    have habsy : abs (B.Y - A.Y) = (Int.natAbs (B.Y - A.Y) : Int) := rfl
    rcases le_total (abs (B.Y - A.Y)) (abs (B.X - A.X)) with hmaj | hmaj
    · have h := bresenhamLoop_length_x (sign_cases A.X B.X) (sign_cases A.Y B.Y) B
        (by omega) _ _ _ _ hinv (by omega) hrun
      rw [hx] at h
      omega
    · have h := bresenhamLoop_length_y (sign_cases A.X B.X) (sign_cases A.Y B.Y) B
        (by omega) _ _ _ _ hinv (by omega) hrun
      rw [hy] at h
      omega
  obtain ⟨hsome, hnone⟩ := bresenhamLoop_passes _ _ _ _ _ _ _ _ _ hrun
  rw [hlen] at hsome hnone
  refine ⟨hlen, (bresenhamFuel_enough A B 0).2.2.1, hsome, ?_, hnone _ (by omega)⟩
  intro extra
  exact bresenhamLoop_mono _ _ _ _ _ _ _ _ _ hsome extra

/-! ## The position of nail 0 -/

theorem SetGray_Pix_outside (g : Gray) (px py : Int) (v : Fin 256) (x y : Int)
    (hout : g.Rect.contains x y = false) : (g.SetGray px py v).Pix x y = g.Pix x y := by
  unfold Gray.SetGray
  by_cases hin : g.Rect.contains px py = true
  · rw [if_pos hin]
    simp only
    by_cases hxy : x = px ∧ y = py
    · obtain ⟨rfl, rfl⟩ := hxy
      rw [hin] at hout
      exact absurd hout (by simp)
    · rw [if_neg hxy]
  · rw [if_neg hin]

theorem GrayAt_outside (g : Gray) (x y : Int) (hout : g.Rect.contains x y = false) :
    g.GrayAt x y = 0 := by
  unfold Gray.GrayAt
  rw [hout]
  rfl

theorem SetGray_outside (g : Gray) (x y : Int) (v : Fin 256)
    (hout : g.Rect.contains x y = false) : g.SetGray x y v = g := by
  unfold Gray.SetGray
  rw [hout]
  rfl

/-- The brightening loop writes no pixel outside the canvas. -/
theorem brighten_Pix_outside (tg : ThreadGenerator) (x y : Int) (line : List Point) :
    ∀ c : Gray, c.Rect.contains x y = false → (brighten tg c line).Pix x y = c.Pix x y := by
  induction line with
  | nil => intro c _; rfl
  | cons p rest ih =>
    intro c hout
    unfold brighten
    rw [List.foldl_cons]
    refine (ih _ (by rw [SetGray_Rect]; exact hout)).trans ?_
    exact SetGray_Pix_outside c _ _ _ x y hout

/-- The darkening loop of the renderer writes no pixel outside the image. -/
theorem darkenLine_Pix_outside (x y : Int) (line : List Point) :
    ∀ g : Gray, g.Rect.contains x y = false → (darkenLine g line).Pix x y = g.Pix x y := by
  induction line with
  | nil => intro g _; rfl
  | cons p rest ih =>
    intro g hout
    unfold darkenLine
    rw [List.foldl_cons]
    refine (ih _ (by rw [SetGray_Rect]; exact hout)).trans ?_
    exact SetGray_Pix_outside g _ _ _ x y hout

theorem drawPaths_Pix_outside (d : Dict) (x y : Int) :
    ∀ (paths : List Path) (g : Gray), g.Rect.contains x y = false →
      (paths.foldl (fun (g : Gray) (path : Path) =>
        darkenLine g (mapGet d (getPairKey path.StartingNail path.EndingNail))) g).Pix x y
        = g.Pix x y := by
  intro paths
  induction paths with
  | nil => intro g _; rfl
  | cons p rest ih =>
    intro g hout
    rw [List.foldl_cons, ih _ (by rw [darkenLine_Rect]; exact hout)]
    exact darkenLine_Pix_outside x y _ g hout

theorem square_outside (k : Nat) :
    Rectangle.contains ⟨0, 0, 2 * (k : Int), 2 * (k : Int)⟩ (2 * (k : Int)) (k : Int) = false := by
  simp [Rectangle.contains]

/-- C25. Nail 0 position: with at least one nail, and the floating-point products at the
angle 0 being `int(radius * cos 0) = radius` and `int(radius * sin 0) = 0`,
`getNailsListFromImage` returns exactly `nailsQuantity` nails and nail 0 is
`(centerX + radius, centerY)` with `radius = min(centerX, centerY)`.  For a square canvas
of even side `S = 2k` nail 0 is `(S, S/2)`, outside the canvas: every canvas with these
bounds reads that pixel as 0, `SetGray` there does nothing, and neither the brightening
loop nor the rendering of an image of size `S` writes it. -/
theorem nail_zero_position (env : Env) (tg : ThreadGenerator) (sourceImage : Gray)
    (hq : 0 < tg.nailsQuantity)
    (hcos : ∀ radius : Int, env.truncCos radius 0 tg.nailsQuantity = radius)
    (hsin : ∀ radius : Int, env.truncSin radius 0 tg.nailsQuantity = 0) :
    ∃ (tg' : ThreadGenerator) (nails : List Nail),
      getNailsListFromImage env tg sourceImage = some (tg', nails) ∧
      tg'.nailsList = nails ∧ (nails.length : Int) = tg.nailsQuantity ∧
      nails[0]? = some
        ⟨Int.tdiv (sourceImage.Rect.MaxX - sourceImage.Rect.MinX) 2
            + min (Int.tdiv (sourceImage.Rect.MaxX - sourceImage.Rect.MinX) 2)
                (Int.tdiv (sourceImage.Rect.MaxY - sourceImage.Rect.MinY) 2),
          Int.tdiv (sourceImage.Rect.MaxY - sourceImage.Rect.MinY) 2⟩ ∧
      ∀ k : Nat, sourceImage.Rect = ⟨0, 0, 2 * (k : Int), 2 * (k : Int)⟩ →
        nails[0]? = some ⟨2 * (k : Int), (k : Int)⟩ ∧
        sourceImage.Rect.contains (2 * (k : Int)) (k : Int) = false ∧
        (∀ c : Gray, c.Rect = sourceImage.Rect →
          c.GrayAt (2 * (k : Int)) (k : Int) = 0 ∧
          (∀ v : Fin 256, c.SetGray (2 * (k : Int)) (k : Int) v = c) ∧
          (∀ (t : ThreadGenerator) (line : List Point),
            (brighten t c line).Pix (2 * (k : Int)) (k : Int) = c.Pix (2 * (k : Int)) (k : Int) ∧
            (brighten t c line).GrayAt (2 * (k : Int)) (k : Int) = 0)) ∧
        (∀ (t : ThreadGenerator) (img : Gray), t.imgSize = 2 * (k : Int) →
          GeneratePathsImage t = Except.ok img →
          img.Rect.contains (2 * (k : Int)) (k : Int) = false ∧
          img.Pix (2 * (k : Int)) (k : Int) = 0 ∧
          img.GrayAt (2 * (k : Int)) (k : Int) = 0) := by
  have hnq : ¬ tg.nailsQuantity < 0 := by omega
  have hpos : 0 < tg.nailsQuantity.toNat := by omega
  refine ⟨_, _, by unfold getNailsListFromImage; rw [if_neg hnq], rfl, ?_, ?_, ?_⟩
  · simp only [List.length_map, List.length_range]
    omega
  · rw [List.getElem?_map, List.getElem?_range hpos]
    simp only [Option.map_some', Nat.cast_zero, hcos, hsin, add_zero]
  · intro k hrect
    have hout : sourceImage.Rect.contains (2 * (k : Int)) (k : Int) = false := by
      rw [hrect]; exact square_outside k
    have hdiv : Int.tdiv (2 * (k : Int) - 0) 2 = (k : Int) := by
      rw [sub_zero, Int.tdiv_eq_ediv (by omega) (by omega)]
      omega
    refine ⟨?_, hout, ?_, ?_⟩
    · rw [List.getElem?_map, List.getElem?_range hpos]
      simp only [Option.map_some', Nat.cast_zero, hcos, hsin, add_zero, hrect, hdiv, min_self]
      congr 2
      ring
    · intro c hc
      have hcout : c.Rect.contains (2 * (k : Int)) (k : Int) = false := by rw [hc]; exact hout
      refine ⟨GrayAt_outside c _ _ hcout, fun v => SetGray_outside c _ _ v hcout, ?_⟩
      intro t line
      refine ⟨brighten_Pix_outside t _ _ line c hcout, GrayAt_outside _ _ _ ?_⟩
      rw [brighten_Rect]
      exact hcout
    · intro t img hsize himg
      unfold GeneratePathsImage at himg
      split_ifs at himg
      simp only [Except.ok.injEq] at himg
      have hwhite : (whiteCanvas t.imgSize).Rect.contains (2 * (k : Int)) (k : Int) = false := by
        rw [hsize]
        simp [whiteCanvas, imageRect, Rectangle.contains]
      have himgout : img.Rect.contains (2 * (k : Int)) (k : Int) = false := by
        rw [← himg, drawPaths_Rect]
        exact hwhite
      refine ⟨himgout, ?_, GrayAt_outside _ _ _ himgout⟩
      rw [← himg, drawPaths_Pix_outside _ _ _ _ _ hwhite]
      simp only [whiteCanvas, hsize]
      rw [if_neg (by omega)]

/-- Witness for `nail_zero_position`: four nails on the white 4×4 image, where nail 0 is
`(4, 2)`. -/
theorem nail_zero_position_witness :
    (0 < fourNailConfig.nailsQuantity ∧
      (∀ radius : Int, whiteEnv.truncCos radius 0 fourNailConfig.nailsQuantity = radius) ∧
      (∀ radius : Int, whiteEnv.truncSin radius 0 fourNailConfig.nailsQuantity = 0)) ∧
    ∃ (tg' : ThreadGenerator) (nails : List Nail),
      getNailsListFromImage whiteEnv fourNailConfig (uniformImage 255) = some (tg', nails) ∧
      nails[0]? = some ⟨4, 2⟩ :=
  ⟨⟨by decide, fun _ => rfl, fun _ => rfl⟩,
   (nail_zero_position whiteEnv fourNailConfig (uniformImage 255) (by decide) (fun _ => rfl)
      (fun _ => rfl)).imp
    (fun _ h => h.imp (fun _ h' => ⟨h'.1, (h'.2.2.2.2 2 rfl).1⟩))⟩

end threadGenerator
